import Mathlib

/-!
Verification development for the polarhouse repository: a bridge between
ClickHouse native blocks and polars dataframes. The Rust sources in
`src/structs.rs`, `src/c2p.rs`, `src/p2c.rs`, `src/table.rs` and
`src/clickhouse.rs` are shallowly embedded below: strings become `List Char`,
fallible functions return `Except Failure`, panics become the distinguished
`Failure.panicked`, and the ordered `IndexMap` becomes an association list
with ordered insert/remove operations mirroring the `indexmap` crate.
-/

set_option maxHeartbeats 1000000

namespace Polarhouse

/-! ## Column names and dot-separated paths (`str::split('.')` / `Itertools::join`) -/

/-- A column name, modelled as its character list. -/
abbrev Name := List Char

/-- Model of Rust `str::contains('.')`. -/
def hasDot : Name → Bool
  | [] => false
  | c :: cs => if c = '.' then true else hasDot cs

/-- Model of Rust `str::split('.')`: splits a name at every dot. -/
def splitOnDot : Name → List Name
  | [] => [[]]
  | c :: cs =>
    if c = '.' then [] :: splitOnDot cs
    else
      match splitOnDot cs with
      | [] => [[c]]
      | s :: ss => (c :: s) :: ss

/-- Model of `Itertools::join(".")` over name segments. -/
def joinDots : List Name → Name
  | [] => []
  | [s] => s
  | s :: ss => s ++ '.' :: joinDots ss

/-- The first segment of a name: `k.split('.').next().unwrap()`. -/
def prefixOf (n : Name) : Name := (splitOnDot n).headD []

/-- Everything after the first dot, re-joined: `it.join(".")` on the remaining
segments of `k.split('.')`. -/
def suffixOf (n : Name) : Name := joinDots (splitOnDot n).tail

theorem splitOnDot_ne_nil (n : Name) : splitOnDot n ≠ [] := by
  cases n with
  | nil => simp [splitOnDot]
  | cons c cs =>
    simp only [splitOnDot]
    split
    · simp
    · split <;> simp_all

theorem joinDots_splitOnDot (n : Name) : joinDots (splitOnDot n) = n := by
  induction n with
  | nil => rfl
  | cons c cs ih =>
    simp only [splitOnDot]
    split
    · rename_i hc
      subst hc
      rcases h : splitOnDot cs with _ | ⟨s, ss⟩
      · exact absurd h (splitOnDot_ne_nil cs)
      · rw [h] at ih
        simpa [joinDots] using ih
    · rcases h : splitOnDot cs with _ | ⟨s, ss⟩
      · exact absurd h (splitOnDot_ne_nil cs)
      · rw [h] at ih
        cases ss with
        | nil => simpa [joinDots] using ih
        | cons s' ss' => simpa [joinDots] using ih

theorem splitOnDot_no_dot (n : Name) (h : hasDot n = false) : splitOnDot n = [n] := by
  induction n with
  | nil => rfl
  | cons c cs ih =>
    simp only [hasDot] at h
    split at h
    · exact absurd h (by simp)
    · rename_i hc
      simp only [splitOnDot, if_neg hc, ih h]

theorem prefixOf_no_dot (n : Name) (h : hasDot n = false) : prefixOf n = n := by
  simp [prefixOf, splitOnDot_no_dot n h]

theorem splitOnDot_append_dot (a b : Name) (ha : hasDot a = false) :
    splitOnDot (a ++ '.' :: b) = a :: splitOnDot b := by
  induction a with
  | nil => simp [splitOnDot]
  | cons c cs ih =>
    simp only [hasDot] at ha
    split at ha
    · exact absurd ha (by simp)
    · rename_i hc
      have h2 : splitOnDot (cs ++ '.' :: b) = cs :: splitOnDot b := ih ha
      simp only [List.cons_append, splitOnDot, if_neg hc, List.append_eq, h2]

theorem hasDot_append_dot (a b : Name) : hasDot (a ++ '.' :: b) = true := by
  induction a with
  | nil => simp [hasDot]
  | cons c cs ih =>
    simp only [List.cons_append, hasDot]
    split <;> simp [ih]

theorem prefixOf_append_dot (a b : Name) (ha : hasDot a = false) :
    prefixOf (a ++ '.' :: b) = a := by
  simp [prefixOf, splitOnDot_append_dot a b ha]

theorem suffixOf_append_dot (a b : Name) (ha : hasDot a = false) :
    suffixOf (a ++ '.' :: b) = b := by
  simp [suffixOf, splitOnDot_append_dot a b ha, joinDots_splitOnDot]

theorem splitOnDot_head_no_dot (n : Name) : hasDot (prefixOf n) = false := by
  induction n with
  | nil => rfl
  | cons c cs ih =>
    simp only [prefixOf, splitOnDot]
    split
    · rfl
    · rename_i hc
      rcases h : splitOnDot cs with _ | ⟨s, ss⟩
      · exact absurd h (splitOnDot_ne_nil cs)
      · simp only [List.headD_cons]
        simp only [prefixOf, h, List.headD_cons] at ih
        simp [hasDot, hc, ih]

/-- Decomposition of a dotted name into its first segment and remainder. -/
theorem dotted_decomp (n : Name) (h : hasDot n = true) :
    n = prefixOf n ++ '.' :: suffixOf n := by
  induction n with
  | nil => simp [hasDot] at h
  | cons c cs ih =>
    by_cases hc : c = '.'
    · subst hc
      simp [prefixOf, suffixOf, splitOnDot, joinDots_splitOnDot]
    · simp only [hasDot, if_neg hc] at h
      rcases hs : splitOnDot cs with _ | ⟨s, ss⟩
      · exact absurd hs (splitOnDot_ne_nil cs)
      · have ih' := ih h
        simp only [prefixOf, suffixOf, splitOnDot, if_neg hc, hs, List.headD_cons,
          List.tail_cons] at ih' ⊢
        rw [List.cons_append]
        exact congrArg (c :: ·) ih'

theorem suffixOf_length_lt (n : Name) (h : hasDot n = true) :
    (suffixOf n).length < n.length := by
  conv_rhs => rw [dotted_decomp n h]
  simp only [List.length_append, List.length_cons]
  omega

/-! ## Ordered maps: model of `klickhouse::IndexMap` -/

/-- Association-list lookup (`IndexMap::get`). -/
def lookupIM {α : Type} : List (Name × α) → Name → Option α
  | [], _ => none
  | (k, v) :: m, k' => if k = k' then some v else lookupIM m k'

/-- `IndexMap::insert`: replace in place if the key exists, else append. -/
def insertIM {α : Type} : List (Name × α) → Name → α → List (Name × α)
  | [], k, v => [(k, v)]
  | (k', v') :: m, k, v => if k' = k then (k', v) :: m else (k', v') :: insertIM m k v

/-- `IndexMap::remove`: return the removed value and the remaining map
(order of the remainder is irrelevant to all uses below). -/
def removeIM {α : Type} : List (Name × α) → Name → Option (α × List (Name × α))
  | [], _ => none
  | (k', v') :: m, k =>
    if k' = k then some (v', m)
    else (removeIM m k).map (fun p => (p.1, (k', v') :: p.2))

/-- `IndexMap::entry(k).or_default().push(x)`: append `x` to the group at `k`,
creating the group at the end if absent. -/
def pushGroup {α : Type} : List (Name × List α) → Name → α → List (Name × List α)
  | [], k, x => [(k, [x])]
  | (k', xs) :: m, k, x =>
    if k' = k then (k', xs ++ [x]) :: m else (k', xs) :: pushGroup m k x

/-- `IndexMap::extend`: insert every pair of `adds` in order. -/
def extendIM {α : Type} (m : List (Name × α)) (adds : List (Name × α)) : List (Name × α) :=
  adds.foldl (fun acc p => insertIM acc p.1 p.2) m

/-- `IndexMap::entry(k).or_insert_with(v)`: append `(k, v)` only if `k` is absent. -/
def entryOrInsert {α : Type} (m : List (Name × α)) (k : Name) (v : α) : List (Name × α) :=
  if (lookupIM m k).isSome then m else m ++ [(k, v)]

/-! ## Data model: ClickHouse types/values, polars dtypes/series, blocks, errors -/

/-- Model of the `klickhouse::Type` variants used by this repository
(remaining variants are represented by `date`, which the conversions treat
as unsupported, exactly like the Rust catch-all arms). -/
inductive KType where
  | string
  | uint8 | uint16 | uint32 | uint64
  | int8 | int16 | int32 | int64
  | float32 | float64
  | uuid
  | date
  | array (t : KType)
  | nullable (t : KType)
  | lowCardinality (t : KType)
deriving DecidableEq

/-- `polarhouse::ClickhouseType` (lib.rs): a klickhouse type plus the two
semantic tags layered on top. -/
inductive CHType where
  | native (t : KType)
  | bool
  | nullable (t : CHType)
deriving DecidableEq

/-- `klickhouse::Value` (wire-tagged cell values); float payloads are raw bits. -/
inductive KValue where
  | null
  | string (s : List Char)
  | uint8 (n : Nat) | uint16 (n : Nat) | uint32 (n : Nat) | uint64 (n : Nat)
  | int8 (n : Int) | int16 (n : Int) | int32 (n : Int) | int64 (n : Int)
  | float32 (bits : Nat) | float64 (bits : Nat)
  | uuid (s : List Char)
  | array (vs : List KValue)

/-- `val == &klickhouse::Value::Null` (the only value comparison the code makes). -/
def KValue.isNull : KValue → Bool
  | .null => true
  | _ => false

/-- `polars_core::datatypes::CategoricalOrdering`. -/
inductive CatOrdering where
  | physical
  | lexical
deriving DecidableEq

/-- The polars `DataType` variants reachable in this code (`date` again stands
for the unsupported remainder hitting the Rust catch-all arm). -/
inductive PDataType where
  | null
  | string
  | boolean
  | uint8 | uint16 | uint32 | uint64
  | int8 | int16 | int32 | int64
  | float32 | float64
  | date
  | categorical (rev : Option Unit) (ord : CatOrdering)
  | list (t : PDataType)
deriving DecidableEq

/-- One polars cell; the column's dtype carries the width information. -/
inductive PValue where
  | null
  | str (s : List Char)
  | b (x : Bool)
  | u (n : Nat)
  | i (n : Int)
  | f (bits : Nat)
  | list (vs : List PValue)

/-- A polars `Series`: either a flat (leaf) chunked array with a dtype and
cells, or a `StructChunked` with named sub-series. -/
inductive Series where
  | leaf (name : Name) (dtype : PDataType) (vals : List PValue)
  | strct (name : Name) (fields : List Series)

/-- `Series::name`. -/
def Series.name : Series → Name
  | .leaf n _ _ => n
  | .strct n _ => n

/-- `Series::rename`. -/
def Series.rename : Series → Name → Series
  | .leaf _ d v, m => .leaf m d v
  | .strct _ f, m => .strct m f

/-- `Series::dtype` (struct dtypes are never consulted by the embedded code
paths, so they are collapsed to `null`). -/
def Series.dtypeOf : Series → PDataType
  | .leaf _ d _ => d
  | .strct _ _ => .null

/-- The cells of a leaf series. -/
def Series.valsOf : Series → List PValue
  | .leaf _ _ v => v
  | .strct _ _ => []

/-- `Series::len`. -/
def seriesLen : Series → Nat
  | .leaf _ _ v => v.length
  | .strct _ [] => 0
  | .strct _ (f :: _) => seriesLen f

/-- `klickhouse::block::Block` (the constant `BlockInfo` field is omitted). -/
structure Block where
  rows : Nat
  column_types : List (Name × KType)
  column_data : List (Name × List KValue)

/-- `polarhouse::Error` (errors.rs); payloads that are only human-readable
debug strings are dropped. -/
inductive Err where
  | polars
  | klickhouseProtocol (msg : List Char)
  | missingClient
  | unsupportedPolarsType (dt : PDataType)
  | unsupportedClickhouseType (t : CHType)
  | invalidPrimaryKey (k : Name)
  | mismatchingColumns
  | mismatchingValueType (found expected : KType)
  | mismatchingSeriesType (dt : PDataType)
  | unexpectedNull (msg : List Char)
  | missingColumnLocal (c : Name)
  | shouldRechunk
  | mismatchingLengths (ls : Finset Nat)

/-- A Rust computation outcome: an `Error`, or a panic (`unwrap`/`unreachable`). -/
inductive Failure where
  | err (e : Err)
  | panicked

/-- Shallow embedding of fallible Rust code. -/
abbrev Res (α : Type) := Except Failure α

/-! ## Type mapping (lib.rs `ClickhouseType` conversions, c2p.rs, p2c.rs) -/

/-- `impl From<ClickhouseType> for klickhouse::Type` (lib.rs). The `Nullable`
case is modelled from the spec ("nullable unwraps/wraps recursively"), since
the revision of lib.rs under src/ predates that variant. -/
def CHType.toKType : CHType → KType
  | .native n => n
  | .bool => .uint8
  | .nullable t => .nullable t.toKType

/-- Modelled from the spec: `impl From<klickhouse::Type> for ClickhouseType`
(used at c2p.rs:79,111,212 and p2c.rs:385 but absent from the src revision of
lib.rs): a wire type carries no boolean tag, so it imports as `Native`. -/
def CHType.ofKType (t : KType) : CHType := .native t

/-- Modelled from the spec: `ClickhouseType::nullable` (used at c2p.rs:124 and
table.rs:104): "nullable unwraps/wraps recursively", i.e. wrap once, without
double-wrapping. -/
def CHType.mkNullable : CHType → CHType
  | .nullable t => .nullable t
  | t => .nullable t

/-- `klickhouse::Type::strip_null` (external crate): unwrap one `Nullable`. -/
def KType.stripNull : KType → KType
  | .nullable t => t
  | t => t

/-- `klickhouse::Type::strip_low_cardinality` (external crate): unwrap one
`LowCardinality`. -/
def KType.stripLowCardinality : KType → KType
  | .lowCardinality t => t
  | t => t

/-- `klickhouse::Value::guess_type` (external crate): the physical tag of a
value; an array guesses from its first element, defaulting to `String`. -/
def KValue.guessType : KValue → KType
  | .null => .nullable .string
  | .string _ => .string
  | .uint8 _ => .uint8
  | .uint16 _ => .uint16
  | .uint32 _ => .uint32
  | .uint64 _ => .uint64
  | .int8 _ => .int8
  | .int16 _ => .int16
  | .int32 _ => .int32
  | .int64 _ => .int64
  | .float32 _ => .float32
  | .float64 _ => .float64
  | .uuid _ => .uuid
  | .array [] => .array .string
  | .array (v :: _) => .array v.guessType

/-- Size of a wire type (executable counterpart of `sizeOf`). -/
def KType.ksize : KType → Nat
  | .array t => t.ksize + 1
  | .nullable t => t.ksize + 1
  | .lowCardinality t => t.ksize + 1
  | _ => 1

/-- Termination measure for the mutually-recursing conversions: `Native`
nodes weigh three times their wire type so that passing through
`mkNullable ∘ ofKType` strictly decreases. -/
def chMeasure : CHType → Nat
  | .native k => 3 * k.ksize
  | .bool => 0
  | .nullable t => chMeasure t + 2

/-- `impl TryFrom<&ClickhouseType> for DataType` (c2p.rs:86-131). -/
def dataTypeOfCH : CHType → Res PDataType
  | .native .string => .ok .string
  | .native .uint8 => .ok .uint8
  | .native .uint16 => .ok .uint16
  | .native .uint32 => .ok .uint32
  | .native .uint64 => .ok .uint64
  | .native .int8 => .ok .int8
  | .native .int16 => .ok .int16
  | .native .int32 => .ok .int32
  | .native .int64 => .ok .int64
  | .native .float32 => .ok .float32
  | .native .float64 => .ok .float64
  | .bool => .ok .boolean
  | .native .uuid => .ok .string
  | .native (.array inner) => do
    let d ← dataTypeOfCH (CHType.ofKType inner)
    .ok (.list d)
  | .native (.lowCardinality .string) => .ok (.categorical none .physical)
  | .native (.nullable s) => dataTypeOfCH (CHType.mkNullable (CHType.ofKType s))
  | .nullable s => dataTypeOfCH s
  | t => .error (.err (.unsupportedClickhouseType t))
termination_by t => chMeasure t
decreasing_by
  all_goals simp [chMeasure, CHType.mkNullable, CHType.ofKType, KType.ksize]
  all_goals omega

/-- `impl TryFrom<&DataType> for ClickhouseType` (p2c.rs:274-306). -/
def chOfDataType : PDataType → Res CHType
  | .string => .ok (.native .string)
  | .uint8 => .ok (.native .uint8)
  | .uint16 => .ok (.native .uint16)
  | .uint32 => .ok (.native .uint32)
  | .uint64 => .ok (.native .uint64)
  | .int8 => .ok (.native .int8)
  | .int16 => .ok (.native .int16)
  | .int32 => .ok (.native .int32)
  | .int64 => .ok (.native .int64)
  | .float32 => .ok (.native .float32)
  | .float64 => .ok (.native .float64)
  | .boolean => .ok .bool
  | .categorical _ _ => .ok (.native (.lowCardinality .string))
  | .list t => do
    let c ← chOfDataType t
    .ok (.native (.array c.toKType))
  | t => .error (.err (.unsupportedPolarsType t))

/-! ## Struct flattening (structs.rs) -/

/-- The rename in `flatten_structchunked`: `field.rename("{parent}.{field}")`. -/
def prependParent (p : Name) (s : Series) : Series := s.rename (p ++ '.' :: s.name)

mutual
/-- `flatten_structchunked` (structs.rs:26-42), applied to a struct with the
given name and fields. -/
def flattenStructC (n : Name) (fields : List Series) : List Series :=
  (flattenFields fields).map (prependParent n)
/-- The `flat_map` body of `flatten_structchunked` over the field list. -/
def flattenFields : List Series → List Series
  | [] => []
  | f :: fs =>
    (match f with
     | .strct m g => flattenStructC m g
     | l => [l]) ++ flattenFields fs
end

/-- The per-column body of `flatten` (structs.rs:16-22). -/
def blockOf (f : Series) : List Series :=
  match f with
  | .strct m g => flattenStructC m g
  | l => [l]

/-- `flatten` (structs.rs:12-24). -/
def flatten (df : List Series) : List Series := df.flatMap blockOf

/-- The placeholder behind `series.get(&name).unwrap()` in `unflatten`
(provably never used on the reachable inputs). -/
def dfltSeries : Series := .leaf [] .null []

/-- The grouping pass of `unflatten` (structs.rs:54-66): dotted keys, in
order, grouped by first segment into (full name, suffix) pairs. -/
def groupDotted (keys : List Name) : List (Name × List (Name × Name)) :=
  keys.foldl (fun m k => if hasDot k then pushGroup m (prefixOf k) (k, suffixOf k) else m) []

/-- Building one group's field map (structs.rs:71-78): look each full name up
in the input, rename it to its suffix, and collect into an `IndexMap` keyed by
suffix. -/
def mkFieldsMap (series : List (Name × Series)) (fields : List (Name × Name)) :
    List (Name × Series) :=
  fields.foldl
    (fun acc p => insertIM acc p.2 (((lookupIM series p.1).getD dfltSeries).rename p.2)) []

/-- The output pass of `unflatten` (structs.rs:85-101): walk the input in
order, splicing each synthesized struct at the first column carrying its
prefix and dropping the remaining dotted columns. -/
def spliceStructs : List (Name × Series) → List (Name × Series) → List (Name × Series)
  | _, [] => []
  | structsLeft, (name, field) :: rest =>
    match removeIM structsLeft (prefixOf name) with
    | some (s, structsLeft') => (prefixOf name, s) :: spliceStructs structsLeft' rest
    | none =>
      if hasDot name then spliceStructs structsLeft rest
      else (name, field) :: spliceStructs structsLeft rest

/-- Largest key length in an ordered map (termination measure for `unflatten`). -/
def maxKeyLen {α : Type} (m : List (Name × α)) : Nat :=
  m.foldr (fun p acc => max p.1.length acc) 0

theorem maxKeyLen_mem {α : Type} {m : List (Name × α)} {p : Name × α} (h : p ∈ m) :
    p.1.length ≤ maxKeyLen m := by
  induction m with
  | nil => cases h
  | cons q m ih =>
    rcases List.mem_cons.mp h with h | h
    · subst h
      exact le_max_left _ _
    · exact le_trans (ih h) (le_max_right _ _)

theorem maxKeyLen_lt {α : Type} {m : List (Name × α)} {B : Nat}
    (hB : 0 < B) (h : ∀ p ∈ m, p.1.length < B) : maxKeyLen m < B := by
  induction m with
  | nil => exact hB
  | cons q m ih =>
    have h1 := h q (List.mem_cons_self q m)
    have h2 := ih (fun p hp => h p (List.mem_cons_of_mem q hp))
    simp only [maxKeyLen, List.foldr_cons] at h2 ⊢
    omega

theorem pushGroup_item_mem {α : Type} {m : List (Name × List α)} {k : Name} {x : α}
    {g : Name × List α} {q : α} (hg : g ∈ pushGroup m k x) (hq : q ∈ g.2) :
    (∃ g' ∈ m, g'.1 = g.1 ∧ q ∈ g'.2) ∨ q = x := by
  induction m with
  | nil =>
    simp only [pushGroup, List.mem_singleton] at hg
    subst hg
    simp only [List.mem_singleton] at hq
    right; exact hq
  | cons p m ih =>
    simp only [pushGroup] at hg
    split at hg
    · rename_i hpk
      rcases List.mem_cons.mp hg with hg | hg
      · subst hg
        simp only [List.mem_append, List.mem_singleton] at hq
        rcases hq with hq | hq
        · left; exact ⟨p, List.mem_cons_self p m, rfl, hq⟩
        · right; exact hq
      · left; exact ⟨g, List.mem_cons_of_mem p hg, rfl, hq⟩
    · rcases List.mem_cons.mp hg with hg | hg
      · subst hg
        left; exact ⟨p, List.mem_cons_self p m, rfl, hq⟩
      · rcases ih hg with ⟨g', hg', he, hq'⟩ | h
        · left; exact ⟨g', List.mem_cons_of_mem p hg', he, hq'⟩
        · right; exact h

theorem pushGroup_nonempty {α : Type} {m : List (Name × List α)} {k : Name} {x : α}
    (h : ∀ g ∈ m, g.2 ≠ []) : ∀ g ∈ pushGroup m k x, g.2 ≠ [] := by
  induction m with
  | nil => intro g hg; simp only [pushGroup, List.mem_singleton] at hg; subst hg; simp
  | cons p m ih =>
    intro g hg
    simp only [pushGroup] at hg
    split at hg
    · rcases List.mem_cons.mp hg with hg | hg
      · subst hg; simp
      · exact h g (List.mem_cons_of_mem p hg)
    · rcases List.mem_cons.mp hg with hg | hg
      · subst hg; exact h p (List.mem_cons_self p m)
      · exact ih (fun g' hg' => h g' (List.mem_cons_of_mem p hg')) g hg

/-- Every item in a group built by `groupDotted` comes from a dotted key of
the input. -/
theorem groupDotted_item (keys : List Name) (g : Name × List (Name × Name))
    (q : Name × Name) (hg : g ∈ groupDotted keys) (hq : q ∈ g.2) :
    ∃ k ∈ keys, hasDot k = true ∧ q = (k, suffixOf k) := by
  suffices H : ∀ (ks : List Name) (m : List (Name × List (Name × Name)))
      (g : Name × List (Name × Name)) (q : Name × Name),
      g ∈ ks.foldl (fun m k => if hasDot k then pushGroup m (prefixOf k) (k, suffixOf k) else m) m →
      q ∈ g.2 →
      (∃ g' ∈ m, g'.1 = g.1 ∧ q ∈ g'.2) ∨ ∃ k ∈ ks, hasDot k = true ∧ q = (k, suffixOf k) by
    rcases H keys [] g q hg hq with ⟨g', hg', _⟩ | h
    · simp at hg'
    · exact h
  intro ks
  induction ks with
  | nil =>
    intro m g q hg hq
    left; exact ⟨g, hg, rfl, hq⟩
  | cons k ks ih =>
    intro m g q hg hq
    simp only [List.foldl_cons] at hg
    by_cases hk : hasDot k
    · rw [if_pos hk] at hg
      rcases ih _ g q hg hq with ⟨g', hg', he, hq'⟩ | h
      · rcases pushGroup_item_mem hg' hq' with ⟨g'', hg'', he', hq''⟩ | h
        · left; exact ⟨g'', hg'', he'.trans he, hq''⟩
        · right; exact ⟨k, by simp, hk, h⟩
      · right; rcases h with ⟨k', hk', h1, h2⟩; exact ⟨k', by simp [hk'], h1, h2⟩
    · rw [if_neg hk] at hg
      rcases ih _ g q hg hq with ⟨g', hg', he, hq'⟩ | h
      · left; exact ⟨g', hg', he, hq'⟩
      · right; rcases h with ⟨k', hk', h1, h2⟩; exact ⟨k', by simp [hk'], h1, h2⟩

/-- Groups built by `groupDotted` are nonempty. -/
theorem groupDotted_nonempty (keys : List Name) (g : Name × List (Name × Name))
    (hg : g ∈ groupDotted keys) : g.2 ≠ [] := by
  suffices H : ∀ (ks : List Name) (m : List (Name × List (Name × Name))),
      (∀ g' ∈ m, g'.2 ≠ []) →
      ∀ g' ∈ ks.foldl
        (fun m k => if hasDot k then pushGroup m (prefixOf k) (k, suffixOf k) else m) m,
      g'.2 ≠ [] by
    exact H keys [] (by simp) g hg
  intro ks
  induction ks with
  | nil => intro m hm g' hg'; exact hm g' hg'
  | cons k ks ih =>
    intro m hm g' hg'
    simp only [List.foldl_cons] at hg'
    by_cases hk : hasDot k
    · rw [if_pos hk] at hg'
      exact ih _ (pushGroup_nonempty hm) g' hg'
    · rw [if_neg hk] at hg'
      exact ih _ hm g' hg'

theorem insertIM_keys {α : Type} {m : List (Name × α)} {k k' : Name} {v : α}
    (h : k ∈ (insertIM m k' v).map Prod.fst) : k ∈ m.map Prod.fst ∨ k = k' := by
  induction m with
  | nil => simp only [insertIM, List.map_cons, List.map_nil, List.mem_singleton] at h; right; exact h
  | cons p m ih =>
    simp only [insertIM] at h
    split at h
    · simp only [List.map_cons, List.mem_cons] at h
      rcases h with h | h
      · left; rw [List.map_cons]; exact List.mem_cons.mpr (Or.inl h)
      · left; rw [List.map_cons]; exact List.mem_cons.mpr (Or.inr h)
    · simp only [List.map_cons, List.mem_cons] at h
      rcases h with h | h
      · left; rw [List.map_cons]; exact List.mem_cons.mpr (Or.inl h)
      · rcases ih h with h | h
        · left; rw [List.map_cons]; exact List.mem_cons.mpr (Or.inr h)
        · right; exact h

theorem mkFieldsMap_keys {series : List (Name × Series)} {fields : List (Name × Name)}
    {k : Name} (h : k ∈ (mkFieldsMap series fields).map Prod.fst) :
    ∃ p ∈ fields, k = p.2 := by
  suffices H : ∀ (fs : List (Name × Name)) (acc : List (Name × Series)),
      k ∈ (fs.foldl
        (fun acc p => insertIM acc p.2 (((lookupIM series p.1).getD dfltSeries).rename p.2))
        acc).map Prod.fst →
      k ∈ acc.map Prod.fst ∨ ∃ p ∈ fs, k = p.2 by
    rcases H fields [] h with h' | h'
    · simp at h'
    · exact h'
  intro fs
  induction fs with
  | nil => intro acc h'; left; exact h'
  | cons p fs ih =>
    intro acc h'
    simp only [List.foldl_cons] at h'
    rcases ih _ h' with h'' | h''
    · rcases insertIM_keys h'' with h3 | h3
      · left; exact h3
      · right; exact ⟨p, by simp, h3⟩
    · right; rcases h'' with ⟨p', hp', he⟩; exact ⟨p', by simp [hp'], he⟩

/-- The recursive call of `unflatten` strictly shrinks the largest key. -/
theorem unflatten_dec (series : List (Name × Series)) (g : Name × List (Name × Name))
    (hg : g ∈ groupDotted (series.map Prod.fst)) :
    maxKeyLen (mkFieldsMap series g.2) < maxKeyLen series := by
  have hne := groupDotted_nonempty _ g hg
  have hex : ∃ q0, q0 ∈ g.2 := by
    rcases g2 : g.2 with _ | ⟨a, b⟩
    · exact absurd g2 hne
    · exact ⟨a, List.mem_cons_self a b⟩
  rcases hex with ⟨q0, hq0m⟩
  rcases groupDotted_item _ g q0 hg hq0m with ⟨k0, hk0, hd0, _⟩
  have hk0len : 1 ≤ k0.length := by
    cases k0 with
    | nil => simp [hasDot] at hd0
    | cons c cs => simp
  have hk0mem : ∃ v, (k0, v) ∈ series := by
    rcases List.mem_map.mp hk0 with ⟨p, hp, he⟩
    exact ⟨p.2, by rwa [show (k0, p.2) = p by rw [← he]]⟩
  rcases hk0mem with ⟨v0, hv0⟩
  have hB : 0 < maxKeyLen series :=
    lt_of_lt_of_le hk0len (maxKeyLen_mem (p := (k0, v0)) hv0)
  apply maxKeyLen_lt hB
  intro p hp
  rcases mkFieldsMap_keys (List.mem_map.mpr ⟨p, hp, rfl⟩) with ⟨q, hq, he⟩
  rcases groupDotted_item _ g q hg hq with ⟨k, hk, hd, hqe⟩
  have hkmem : ∃ v, (k, v) ∈ series := by
    rcases List.mem_map.mp hk with ⟨r, hr, he'⟩
    exact ⟨r.2, by rwa [show (k, r.2) = r by rw [← he']]⟩
  rcases hkmem with ⟨v, hv⟩
  have h1 : (suffixOf k).length < k.length := suffixOf_length_lt k hd
  have h2 : k.length ≤ maxKeyLen series := maxKeyLen_mem (p := (k, v)) hv
  have h3 : p.1 = suffixOf k := by rw [he, hqe]
  have h4 : p.1.length = (suffixOf k).length := by rw [h3]
  omega

/-- `unflatten` (structs.rs:52-102). -/
def unflatten (series : List (Name × Series)) : List (Name × Series) :=
  let groups := groupDotted (series.map Prod.fst)
  let structs := groups.attach.map (fun g =>
    (g.1.1, Series.strct g.1.1 ((unflatten (mkFieldsMap series g.1.2)).map Prod.snd)))
  spliceStructs structs series
termination_by maxKeyLen series
decreasing_by exact unflatten_dec series g.1 g.2

/-- Attach-free unfolding of `unflatten`. -/
theorem unflatten_eq (series : List (Name × Series)) :
    unflatten series =
      spliceStructs
        ((groupDotted (series.map Prod.fst)).map (fun g =>
          (g.1, Series.strct g.1 ((unflatten (mkFieldsMap series g.2)).map Prod.snd))))
        series := by
  rw [unflatten]
  congr 1
  exact List.attach_map_coe _
    (fun (g : Name × List (Name × Name)) =>
      (g.1, Series.strct g.1 ((unflatten (mkFieldsMap series g.2)).map Prod.snd)))

/-! ## Value codec: decode (c2p.rs `values_to_series`) -/

/-- The expected physical tag (c2p.rs:155-158):
`Type::from(type_).strip_null().strip_low_cardinality()`. -/
def expectedTag (t : CHType) : KType := t.toKType.stripNull.stripLowCardinality

/-- The check loop of `values_to_series` (c2p.rs:159-167): the first non-null
value whose guessed type differs from the expected tag. -/
def findMismatch (t : KType) : List KValue → Option KValue
  | [] => none
  | v :: vs =>
    if v.isNull then findMismatch t vs
    else if v.guessType ≠ t then some v else findMismatch t vs

/-- The `extract!` macro body (c2p.rs:133-150): each matching value converts,
`Null` becomes an empty cell, anything else is `unreachable!`. -/
def extractCells (conv : KValue → Option PValue) : List KValue → Res (List PValue)
  | [] => .ok []
  | v :: vs => do
    let p ←
      if v.isNull then pure PValue.null
      else
        match conv v with
        | some p => pure p
        | none => Except.error Failure.panicked
    let ps ← extractCells conv vs
    pure (p :: ps)

mutual
/-- `values_to_series` (c2p.rs:151-230): the check loop (c2p.rs:159-167)
followed by the per-type extraction. -/
def valuesToSeries (values : List KValue) (type_ : CHType) : Res Series :=
  match findMismatch (expectedTag type_) values with
  | some v => .error (.err (.mismatchingValueType v.guessType (expectedTag type_)))
  | none => valuesToSeriesBody values type_
termination_by 2 * chMeasure type_ + 1
decreasing_by simp [chMeasure]

/-- The per-type extraction `match` of `values_to_series` (c2p.rs:176-228). -/
def valuesToSeriesBody (values : List KValue) (type_ : CHType) : Res Series :=
  match type_ with
  | .native .string => do
    pure (Series.leaf [] .string
      (← extractCells (fun v => match v with | .string s => some (.str s) | _ => none) values))
  | .bool => do
    pure (Series.leaf [] .boolean
      (← extractCells (fun v => match v with
          | .uint8 n => some (.b (decide (0 < n))) | _ => none) values))
  | .native .uuid => do
    pure (Series.leaf [] .string
      (← extractCells (fun v => match v with | .uuid s => some (.str s) | _ => none) values))
  | .native .uint8 => do
    pure (Series.leaf [] .uint8
      (← extractCells (fun v => match v with | .uint8 n => some (.u n) | _ => none) values))
  | .native .uint16 => do
    pure (Series.leaf [] .uint16
      (← extractCells (fun v => match v with | .uint16 n => some (.u n) | _ => none) values))
  | .native .uint32 => do
    pure (Series.leaf [] .uint32
      (← extractCells (fun v => match v with | .uint32 n => some (.u n) | _ => none) values))
  | .native .uint64 => do
    pure (Series.leaf [] .uint64
      (← extractCells (fun v => match v with | .uint64 n => some (.u n) | _ => none) values))
  | .native .int8 => do
    pure (Series.leaf [] .int8
      (← extractCells (fun v => match v with | .int8 n => some (.i n) | _ => none) values))
  | .native .int16 => do
    pure (Series.leaf [] .int16
      (← extractCells (fun v => match v with | .int16 n => some (.i n) | _ => none) values))
  | .native .int32 => do
    pure (Series.leaf [] .int32
      (← extractCells (fun v => match v with | .int32 n => some (.i n) | _ => none) values))
  | .native .int64 => do
    pure (Series.leaf [] .int64
      (← extractCells (fun v => match v with | .int64 n => some (.i n) | _ => none) values))
  | .native .float32 => do
    pure (Series.leaf [] .float32
      (← extractCells (fun v => match v with | .float32 n => some (.f n) | _ => none) values))
  | .native .float64 => do
    pure (Series.leaf [] .float64
      (← extractCells (fun v => match v with | .float64 n => some (.f n) | _ => none) values))
  | .native (.lowCardinality .string) => do
    pure (Series.leaf [] (.categorical none .physical)
      (← extractCells (fun v => match v with | .string s => some (.str s) | _ => none) values))
  | .nullable t => valuesToSeries values t
  | .native (.nullable inner) => valuesToSeries values (CHType.ofKType inner)
  | .native (.array inner) => do
    let series ← values.mapM (fun v =>
      match v with
      | .array vs => valuesToSeries vs (CHType.ofKType inner)
      | .null => Except.error (Failure.err (.unexpectedNull ['I', 'n', ' ', 'a', 'r', 'r', 'a', 'y']))
      | v => Except.error (Failure.err (.unsupportedClickhouseType (CHType.native v.guessType))))
    pure (Series.leaf [] (.list ((series.map Series.dtypeOf).headD .null))
      (series.map (fun s => PValue.list s.valsOf)))
  | t => .error (.err (.unsupportedClickhouseType t))
termination_by 2 * chMeasure type_
decreasing_by
  all_goals simp [chMeasure, CHType.ofKType, KType.ksize]
  all_goals omega
end

/-! ## Value codec: encode (p2c.rs `series_to_values`) -/

/-- The `extract_vals!` macro (p2c.rs:308-321): check the series' physical
dtype, then convert each cell (`None` cells become `Value::Null`). -/
def extractVals (series : Series) (expected : PDataType) (conv : PValue → Option KValue) :
    Res (List KValue) :=
  if series.dtypeOf = expected then
    series.valsOf.mapM (fun v =>
      match v with
      | .null => pure KValue.null
      | v =>
        match conv v with
        | some kv => pure kv
        | none => Except.error Failure.panicked)
  else .error (.err (.mismatchingSeriesType series.dtypeOf))

/-- `series_to_values` (p2c.rs:323-405). -/
def seriesToValues (series : Series) (type_ : CHType) : Res (List KValue) :=
  match type_ with
  | .native .string =>
    extractVals series .string (fun v => match v with | .str s => some (.string s) | _ => none)
  | .native .uint8 =>
    extractVals series .uint8 (fun v => match v with | .u n => some (.uint8 n) | _ => none)
  | .native .uint16 =>
    extractVals series .uint16 (fun v => match v with | .u n => some (.uint16 n) | _ => none)
  | .native .uint32 =>
    extractVals series .uint32 (fun v => match v with | .u n => some (.uint32 n) | _ => none)
  | .native .uint64 =>
    extractVals series .uint64 (fun v => match v with | .u n => some (.uint64 n) | _ => none)
  | .native .int8 =>
    extractVals series .int8 (fun v => match v with | .i n => some (.int8 n) | _ => none)
  | .native .int16 =>
    extractVals series .int16 (fun v => match v with | .i n => some (.int16 n) | _ => none)
  | .native .int32 =>
    extractVals series .int32 (fun v => match v with | .i n => some (.int32 n) | _ => none)
  | .native .int64 =>
    extractVals series .int64 (fun v => match v with | .i n => some (.int64 n) | _ => none)
  | .native .float32 =>
    extractVals series .float32 (fun v => match v with | .f n => some (.float32 n) | _ => none)
  | .native .float64 =>
    extractVals series .float64 (fun v => match v with | .f n => some (.float64 n) | _ => none)
  | .bool =>
    extractVals series .boolean
      (fun v => match v with | .b x => some (.uint8 (if x then 1 else 0)) | _ => none)
  | .native (.lowCardinality .string) =>
    -- p2c.rs:365-375: `series.categorical().unwrap().iter_str().map(|x|
    -- Value::String(x.unwrap().into()))`: both unwraps panic rather than err.
    (match series.dtypeOf with
     | .categorical _ _ =>
       series.valsOf.mapM (fun v =>
         match v with
         | .str s => pure (KValue.string s)
         | _ => Except.error Failure.panicked)
     | _ => Except.error Failure.panicked)
  | .native (.array inner) =>
    (match series.dtypeOf with
     | .list dtInner =>
       series.valsOf.mapM (fun v =>
         match v with
         | .list vs =>
           -- the recursive result is `.unwrap()`ed (p2c.rs:387)
           (match seriesToValues (Series.leaf [] dtInner vs) (CHType.ofKType inner) with
            | .ok kvs => pure (KValue.array kvs)
            | .error _ => Except.error Failure.panicked)
         | .null => pure KValue.null
         | _ => Except.error Failure.panicked)
     | _ => .error (.err (.mismatchingSeriesType series.dtypeOf)))
  | .native (.nullable s) => seriesToValues series (CHType.ofKType s)
  | .nullable t => seriesToValues series t
  | t => .error (.err (.unsupportedClickhouseType t))
termination_by chMeasure type_
decreasing_by
  all_goals simp [chMeasure, CHType.ofKType, KType.ksize]

/-! ## Result accumulator (c2p.rs `get_df_stream` / `get_df_query`) -/

/-- The initial empty per-column series of `get_df_stream` (c2p.rs:18-25). -/
def initSeries (chTypes : List (Name × CHType)) : Res (List (Name × Series)) :=
  chTypes.mapM (fun p => do
    let dt ← dataTypeOfCH p.2
    pure (p.1, Series.leaf p.1 dt []))

/-- `Series::extend` as used at c2p.rs:35: append, requiring equal dtypes. -/
def extendSeries (target other : Series) : Res Series :=
  match target, other with
  | .leaf n dt vs, .leaf _ dt' vs' =>
    if dt = dt' then .ok (.leaf n dt (vs ++ vs')) else .error (.err .polars)
  | _, _ => .error (.err .polars)

/-- Processing one incoming block (the `and_then` body, c2p.rs:26-43). -/
def processBlock (chTypes : List (Name × CHType)) (series : List (Name × Series))
    (block : Block) : Res (List (Name × Series)) :=
  block.column_data.foldlM (fun acc p => do
    match lookupIM acc p.1 with
    | none => Except.error (Failure.err (.missingColumnLocal p.1))
    | some s => do
      let t ←
        match lookupIM chTypes p.1 with
        | some t => pure t
        | none => Except.error Failure.panicked   -- `ch_types.get(&col).unwrap()`
      let dec ← valuesToSeries p.2 t
      let s' ← extendSeries s dec
      pure (insertIM acc p.1 s')) series

/-- The accumulation phase of `get_df_stream` (initial series plus the folded
stream). -/
def accumulate (blocks : List Block) (chTypes : List (Name × CHType)) :
    Res (List (Name × Series)) := do
  let init ← initSeries chTypes
  blocks.foldlM (processBlock chTypes) init

/-- The terminal phase of `get_df_stream` (c2p.rs:47-57): drop empty columns,
check lengths, unflatten. -/
def terminalStep (series : List (Name × Series)) : Res (List Series) :=
  let retained := series.filter (fun p => seriesLen p.2 != 0)
  let lengths : Finset Nat := (retained.map (fun p => seriesLen p.2)).toFinset
  if lengths = ∅ then .ok []
  else if lengths.card ≠ 1 then .error (.err (.mismatchingLengths lengths))
  else .ok ((unflatten retained).map Prod.snd)

/-- `get_df_stream` (c2p.rs:13-58), with the block stream already decoded. -/
def getDfStream (blocks : List Block) (chTypes : List (Name × CHType)) : Res (List Series) := do
  let final ← accumulate blocks chTypes
  terminalStep final

/-- `get_df_query` (c2p.rs:64-84): the first block is authoritative for the
column types, overridden by the caller-supplied `types`. -/
def getDfQuery (blocks : List Block) (types : List (Name × CHType)) : Res (List Series) :=
  match blocks with
  | [] => .error (.err (.klickhouseProtocol "Missing initial block".data))
  | initial :: rest =>
    getDfStream rest
      (extendIM (initial.column_types.map (fun p => (p.1, CHType.ofKType p.2))) types)

/-! ## Block assembler (p2c.rs `BlockIterator` / table.rs) -/

/-- Length of the first column's remaining values
(`column_data.values().map(len).next().unwrap_or_default()`). -/
def firstLen (iters : List (Name × List KValue)) : Nat :=
  (iters.map (fun p => p.2.length)).headD 0

/-- One step of `BlockIterator::next` (p2c.rs:217-237): take up to 200 000
values from every column; the row count is the first column's slice length;
a zero-row round ends the iteration. -/
def blockNext (tys : List (Name × KType)) (iters : List (Name × List KValue)) :
    Option (Block × List (Name × List KValue)) :=
  let column_data := iters.map (fun p => (p.1, p.2.take 200000))
  let rows := (column_data.map (fun p => p.2.length)).headD 0
  if rows = 0 then none
  else
    some ({ rows := rows, column_types := tys, column_data := column_data },
      iters.map (fun p => (p.1, p.2.drop 200000)))

theorem blockNext_rest {tys : List (Name × KType)} {p : Name × List KValue}
    {rest iters' : List (Name × List KValue)} {b : Block}
    (h : blockNext tys (p :: rest) = some (b, iters')) :
    iters' = (p.1, p.2.drop 200000) :: rest.map (fun q => (q.1, q.2.drop 200000)) := by
  rw [blockNext] at h
  simp only [List.map_cons, List.headD_cons] at h
  split at h
  · cases h
  · rw [Option.some_inj, Prod.mk.injEq] at h
    exact h.2.symm

theorem blockNext_pos {tys : List (Name × KType)} {p : Name × List KValue}
    {rest iters' : List (Name × List KValue)} {b : Block}
    (h : blockNext tys (p :: rest) = some (b, iters')) : 0 < p.2.length := by
  rw [blockNext] at h
  simp only [List.map_cons, List.headD_cons] at h
  split at h
  · cases h
  · rename_i hrow
    rw [List.length_take] at hrow
    omega

theorem blockNext_dec {tys : List (Name × KType)} {iters iters' : List (Name × List KValue)}
    {b : Block} (h : blockNext tys iters = some (b, iters')) : firstLen iters' < firstLen iters := by
  rcases iters with _ | ⟨p, rest⟩
  · rw [show blockNext tys ([] : List (Name × List KValue)) = none from rfl] at h
    cases h
  · have hit := blockNext_rest h
    have hlen := blockNext_pos h
    rw [hit, firstLen, firstLen, List.map_cons, List.map_cons, List.headD_cons,
      List.headD_cons, List.length_drop]
    omega

/-- The full (finite) block sequence produced by `BlockIterator`. -/
def blocksFrom (tys : List (Name × KType)) (iters : List (Name × List KValue)) : List Block :=
  match h : blockNext tys iters with
  | none => []
  | some (b, iters') => b :: blocksFrom tys iters'
termination_by firstLen iters
decreasing_by exact blockNext_dec h

/-- `BlockIntoIterator::try_into_iter` (p2c.rs:243-272): declared types cover
every table column; the value iterators cover exactly the dataframe columns. -/
def tryIntoIter (cols : List (Name × CHType)) (df : List Series) :
    Res (List (Name × KType) × List (Name × List KValue)) := do
  let column_types := cols.map (fun p => (p.1, p.2.toKType))
  let iters ← df.mapM (fun col => do
    match lookupIM cols col.name with
    | none => Except.error Failure.panicked   -- `self.cols.get(col.name()).unwrap()`
    | some t => do
      let values ← seriesToValues col t
      pure (col.name, values))
  pure (column_types, iters)

/-- The column-set validation of `blocks_from_df` (table.rs:190-215). -/
def blocksFromDf (types : List (Name × CHType)) (df : List Series)
    (defaults : List (Name × KValue)) : Res Unit :=
  let dfCols := (df.map Series.name).toFinset
  let tableCols := (types.map Prod.fst).toFinset
  if ¬ (dfCols ⊆ tableCols) then .error (.err .mismatchingColumns)
  else if dfCols ∪ (defaults.map Prod.fst).toFinset ≠ tableCols then
    .error (.err .mismatchingColumns)
  else .ok ()

/-- The per-block default injection of `insert_df` (table.rs:174-179):
`entry(k).or_insert_with(repeat(v).take(rows))`. -/
def injectDefaults (defaults : List (Name × KValue)) (b : Block) : Block :=
  { b with
    column_data := defaults.foldl
      (fun cd p => entryOrInsert cd p.1 (List.replicate b.rows p.2)) b.column_data }

/-- `insert_df` up to the transport (table.rs:158-188): flatten, validate,
build the block sequence, and inject defaults into every block. -/
def insertDfBlocks (types : List (Name × CHType)) (df : List Series)
    (defaults : List (Name × KValue)) : Res (List Block) := do
  let df := flatten df
  let _u ← blocksFromDf types df defaults
  let (ctys, iters) ← tryIntoIter types df
  pure ((blocksFrom ctys iters).map (injectDefaults defaults))

/-! ## HTTP block adapter (clickhouse.rs `HttpClient::query_raw`) -/

/-- The stream shim of `HttpClient::query_raw` (clickhouse.rs:206-232), over
the already-decoded item sequence of the response body (an empty byte stream
decodes to no items; `Block::read` failures are error items): the first
successfully decoded block is emitted twice; a failing first item fails the
call; an empty stream stays empty. -/
def queryRawHttp (items : List (Res Block)) : Res (List (Res Block)) :=
  match items with
  | [] => .ok []
  | .ok s :: rest => .ok (.ok s :: .ok s :: rest)
  | .error e :: _ => .error e

/-! ## Well-formed dataframes and basic flatten lemmas (towards C1) -/

/-- The ordered map `name → column` built from a dataframe's columns
(c2p.rs:142-146 in the repository's test, and the `series` map of
`get_df_stream`). -/
def toMap (l : List Series) : List (Name × Series) := l.map (fun s => (s.name, s))

/-- The column names of a dataframe. -/
def namesOf (l : List Series) : List Name := l.map Series.name

/-- The struct columns of a dataframe, as ordered map entries. -/
def structEntriesOf (df : List Series) : List (Name × Series) :=
  df.filterMap (fun c => match c with | .strct _ _ => some (c.name, c) | _ => none)

/-- Pairwise-distinct names. -/
def distinctNames : List Name → Bool
  | [] => true
  | x :: xs => !(decide (x ∈ xs)) && distinctNames xs

mutual
/-- A well-formed polars series: dot-free name, and struct fields nonempty,
well-formed and distinctly named (all guaranteed by polars itself). -/
def wfS : Series → Bool
  | .leaf n _ _ => !(hasDot n)
  | .strct n fields =>
    !(hasDot n) && !(fields.isEmpty) && wfL fields && distinctNames (fields.map Series.name)
/-- All series of a list are well-formed. -/
def wfL : List Series → Bool
  | [] => true
  | f :: fs => wfS f && wfL fs
end

/-- A well-formed dataframe: well-formed columns with distinct names. -/
def wfDf (df : List Series) : Bool := wfL df && distinctNames (df.map Series.name)

theorem distinctNames_iff (l : List Name) : distinctNames l = true ↔ l.Nodup := by
  induction l with
  | nil => simp [distinctNames]
  | cons x xs ih => simp [distinctNames, List.nodup_cons, ih]

theorem Series.name_rename (s : Series) (m : Name) : (s.rename m).name = m := by
  cases s <;> rfl

theorem Series.rename_self (s : Series) : s.rename s.name = s := by
  cases s <;> rfl

theorem Series.rename_rename (s : Series) (a b : Name) : (s.rename a).rename b = s.rename b := by
  cases s <;> rfl

theorem prependParent_name (p : Name) (s : Series) :
    (prependParent p s).name = p ++ '.' :: s.name := by
  cases s <;> rfl

theorem prependParent_rename (p : Name) (s : Series) (m : Name) :
    (prependParent p s).rename m = s.rename m := by
  cases s <;> rfl

theorem flattenStructC_eq (n : Name) (fields : List Series) :
    flattenStructC n fields = (flattenFields fields).map (prependParent n) := by
  rw [flattenStructC]

theorem flattenFields_cons (f : Series) (fs : List Series) :
    flattenFields (f :: fs) = blockOf f ++ flattenFields fs := by
  cases f <;> simp [flattenFields, blockOf]

theorem flatten_cons (c : Series) (df : List Series) :
    flatten (c :: df) = blockOf c ++ flatten df := by
  simp [flatten]

theorem flatten_nil : flatten [] = [] := rfl

theorem flatten_eq_flattenFields (df : List Series) : flatten df = flattenFields df := by
  induction df with
  | nil => simp [flatten, flattenFields]
  | cons c df ih => rw [flatten_cons, flattenFields_cons, ih]

theorem wfL_cons {f : Series} {fs : List Series} (h : wfL (f :: fs) = true) :
    wfS f = true ∧ wfL fs = true := by
  rw [wfL] at h
  exact And.intro (by simp_all) (by simp_all)

theorem wfS_strct {n : Name} {fields : List Series} (h : wfS (.strct n fields) = true) :
    hasDot n = false ∧ fields ≠ [] ∧ wfL fields = true ∧
      distinctNames (fields.map Series.name) = true := by
  rw [wfS] at h
  simp only [Bool.and_eq_true, Bool.not_eq_true'] at h
  refine ⟨h.1.1.1, ?_, h.1.2, h.2⟩
  have := h.1.1.2
  simpa [List.isEmpty_iff] using this

theorem wfS_leaf {n : Name} {dt : PDataType} {vs : List PValue}
    (h : wfS (.leaf n dt vs) = true) : hasDot n = false := by
  rw [wfS] at h
  simpa using h

theorem wfS_name_no_dot {c : Series} (h : wfS c = true) : hasDot c.name = false := by
  cases c with
  | leaf n dt vs => exact wfS_leaf h
  | strct n fields => exact (wfS_strct h).1

/-- Size bookkeeping for strong induction over nested series. -/
theorem sizeOf_fields_lt (n : Name) (g : List Series) :
    sizeOf g < sizeOf (Series.strct n g) := by
  simp only [Series.strct.sizeOf_spec]
  omega

theorem sizeOf_mem_le {c : Series} {l : List Series} (h : c ∈ l) : sizeOf c < sizeOf l :=
  List.sizeOf_lt_of_mem h

/-- `blockOf` never erases a well-formed column completely. -/
theorem blockOf_ne_nil : ∀ (N : Nat) (c : Series), sizeOf c ≤ N → wfS c = true →
    blockOf c ≠ [] := by
  intro N
  induction N with
  | zero =>
    intro c hc
    cases c <;> simp_arith at hc
  | succ N ih =>
    intro c hc hwf
    cases c with
    | leaf n dt vs => simp [blockOf]
    | strct m g =>
      obtain ⟨-, hne, hwl, -⟩ := wfS_strct hwf
      rcases g with _ | ⟨c', g'⟩
      · exact absurd rfl hne
      obtain ⟨hwc', -⟩ := wfL_cons hwl
      have hsz : sizeOf c' ≤ N := by
        have h1 : sizeOf c' < sizeOf (c' :: g') := sizeOf_mem_le (List.mem_cons_self c' g')
        have h2 : sizeOf (c' :: g') < sizeOf (Series.strct m (c' :: g')) :=
          sizeOf_fields_lt m (c' :: g')
        omega
      have hb := ih c' hsz hwc'
      have hrw : blockOf (Series.strct m (c' :: g')) = flattenStructC m (c' :: g') := rfl
      rw [hrw, flattenStructC_eq, flattenFields_cons]
      intro hcontra
      rw [List.map_eq_nil_iff, List.append_eq_nil] at hcontra
      exact hb hcontra.1

/-- Every name in a well-formed column's block has that column's name as its
first segment, and is dotted exactly when the column is a struct. -/
theorem blockOf_names {c : Series} (hwf : wfS c = true) {t : Name}
    (ht : t ∈ namesOf (blockOf c)) :
    prefixOf t = c.name ∧
      (hasDot t = true ↔ ∃ m g, c = Series.strct m g) := by
  cases c with
  | leaf n dt vs =>
    simp only [blockOf, namesOf, List.map_cons, List.map_nil, List.mem_singleton] at ht
    subst ht
    constructor
    · exact prefixOf_no_dot _ (wfS_leaf hwf)
    · constructor
      · intro hd
        rw [wfS_leaf hwf] at hd
        cases hd
      · rintro ⟨m, g, hc⟩
        cases hc
  | strct m g =>
    obtain ⟨hnd, -, -, -⟩ := wfS_strct hwf
    simp only [blockOf, flattenStructC_eq, namesOf, List.map_map, List.mem_map] at ht
    obtain ⟨s, -, hs⟩ := ht
    rw [Function.comp_apply, prependParent_name] at hs
    subst hs
    refine ⟨prefixOf_append_dot _ _ hnd, ?_⟩
    constructor
    · intro _; exact ⟨m, g, rfl⟩
    · intro _; exact hasDot_append_dot _ _

/-- Names of a struct's block, explicitly. -/
theorem blockOf_strct_names (m : Name) (g : List Series) :
    namesOf (blockOf (Series.strct m g)) =
      (namesOf (flattenFields g)).map (fun t => m ++ '.' :: t) := by
  simp only [blockOf, flattenStructC_eq, namesOf, List.map_map]
  apply List.map_congr_left
  intro s _
  rw [Function.comp_apply, Function.comp_apply, prependParent_name]

theorem namesOf_append (a b : List Series) : namesOf (a ++ b) = namesOf a ++ namesOf b := by
  simp [namesOf]

theorem namesOf_cons (c : Series) (l : List Series) :
    namesOf (c :: l) = c.name :: namesOf l := rfl

theorem toMap_cons (c : Series) (l : List Series) :
    toMap (c :: l) = (c.name, c) :: toMap l := rfl

theorem toMap_append (a b : List Series) : toMap (a ++ b) = toMap a ++ toMap b := by
  simp [toMap]

theorem toMap_fst (l : List Series) : (toMap l).map Prod.fst = namesOf l := by
  simp [toMap, namesOf]

theorem toMap_snd (l : List Series) : (toMap l).map Prod.snd = l := by
  induction l with
  | nil => rfl
  | cons a l ih => rw [toMap_cons, List.map_cons, ih]

theorem prependName_injective (m0 : Name) : Function.Injective (fun t => m0 ++ '.' :: t) := by
  intro a b hab
  have h := List.append_cancel_left (by exact hab)
  simpa using h

theorem distinctNames_cons {x : Name} {xs : List Name} (h : distinctNames (x :: xs) = true) :
    x ∉ xs ∧ distinctNames xs = true := by
  rw [distinctNames] at h
  simp only [Bool.and_eq_true, Bool.not_eq_true', decide_eq_false_iff_not] at h
  exact h

theorem wfL_mem {fs : List Series} {c : Series} (h : wfL fs = true) (hc : c ∈ fs) :
    wfS c = true := by
  induction fs with
  | nil => cases hc
  | cons f fs ih =>
    obtain ⟨h1, h2⟩ := wfL_cons h
    rcases List.mem_cons.mp hc with hc | hc
    · subst hc; exact h1
    · exact ih h2 hc

theorem mem_flattenFields_names {fs : List Series} {t : Name}
    (ht : t ∈ namesOf (flattenFields fs)) : ∃ c ∈ fs, t ∈ namesOf (blockOf c) := by
  induction fs with
  | nil => rw [flattenFields] at ht; cases ht
  | cons f fs ih =>
    rw [flattenFields_cons, namesOf_append, List.mem_append] at ht
    rcases ht with ht | ht
    · exact ⟨f, List.mem_cons_self f fs, ht⟩
    · obtain ⟨c, hc, ht'⟩ := ih ht
      exact ⟨c, List.mem_cons_of_mem f hc, ht'⟩

/-- Under well-formedness the flattened names are pairwise distinct. -/
theorem flattenFields_names_nodup : ∀ (N : Nat) (fs : List Series), sizeOf fs ≤ N →
    wfL fs = true → distinctNames (namesOf fs) = true → (namesOf (flattenFields fs)).Nodup := by
  intro N
  induction N with
  | zero =>
    intro fs hsz
    cases fs <;> simp_arith at hsz
  | succ N ih =>
    intro fs hsz hw hd
    rcases fs with _ | ⟨c, rest⟩
    · rw [flattenFields]; exact List.nodup_nil
    obtain ⟨hwc, hwrest⟩ := wfL_cons hw
    obtain ⟨hnotin, hdrest⟩ := distinctNames_cons (by exact hd)
    rw [flattenFields_cons, namesOf_append]
    rw [List.nodup_append]
    refine ⟨?_, ?_, ?_⟩
    · -- the block of the head column has distinct names
      cases c with
      | leaf n dt vs => simp [blockOf, namesOf]
      | strct m0 g =>
        obtain ⟨-, -, hwg, hdg⟩ := wfS_strct hwc
        have hszg : sizeOf g ≤ N := by
          have h1 : sizeOf g < sizeOf (Series.strct m0 g) := sizeOf_fields_lt m0 g
          have h2 : sizeOf (Series.strct m0 g) < sizeOf (Series.strct m0 g :: rest) :=
            sizeOf_mem_le (List.mem_cons_self _ _)
          omega
        have hng := ih g hszg hwg hdg
        rw [blockOf_strct_names]
        exact hng.map (prependName_injective m0)
    · -- the rest is distinct by induction
      have hszrest : sizeOf rest ≤ N := by
        have : sizeOf rest < sizeOf (c :: rest) := by
          simp only [List.cons.sizeOf_spec]; omega
        omega
      exact ih rest hszrest hwrest hdrest
    · -- block names of the head are disjoint from the rest
      intro t ht ht'
      rw [← flatten_eq_flattenFields] at ht'
      rw [flatten_eq_flattenFields] at ht'
      obtain ⟨c', hc', htc'⟩ := mem_flattenFields_names ht'
      have h1 := (blockOf_names hwc ht).1
      have h2 := (blockOf_names (wfL_mem hwrest hc') htc').1
      have : c.name = c'.name := by rw [← h1, ← h2]
      apply hnotin
      rw [this]
      exact List.mem_map.mpr ⟨c', hc', rfl⟩

theorem lookupIM_toMap {l : List Series} {s : Series} (hn : (namesOf l).Nodup) (hs : s ∈ l) :
    lookupIM (toMap l) s.name = some s := by
  induction l with
  | nil => cases hs
  | cons a l ih =>
    rw [toMap_cons, lookupIM]
    rcases List.mem_cons.mp hs with hs | hs
    · subst hs
      rw [if_pos rfl]
    · have hne : a.name ≠ s.name := by
        intro he
        rw [namesOf_cons, List.nodup_cons] at hn
        exact hn.1 (he ▸ List.mem_map.mpr ⟨s, hs, rfl⟩)
      rw [if_neg hne]
      exact ih (by rw [namesOf_cons, List.nodup_cons] at hn; exact hn.2) hs

theorem insertIM_fresh {α : Type} {m : List (Name × α)} {k : Name} {v : α}
    (h : k ∉ m.map Prod.fst) : insertIM m k v = m ++ [(k, v)] := by
  induction m with
  | nil => rfl
  | cons p m ih =>
    rw [insertIM]
    rw [List.map_cons] at h
    have hne : p.1 ≠ k := fun he => h (List.mem_cons.mpr (Or.inl he.symm))
    rw [if_neg hne, ih (fun hm => h (List.mem_cons.mpr (Or.inr hm)))]
    rfl

/-- Folding `insertIM` over pairwise-fresh keys is concatenation. -/
theorem foldl_insert_fresh {β γ : Type} (l : List γ) (key : γ → Name) (val : γ → β) :
    ∀ (acc : List (Name × β)), (l.map key).Nodup →
    (∀ x ∈ l, key x ∉ acc.map Prod.fst) →
    l.foldl (fun a x => insertIM a (key x) (val x)) acc = acc ++ l.map (fun x => (key x, val x)) := by
  induction l with
  | nil => intro acc _ _; simp
  | cons x l ih =>
    intro acc hn hf
    rw [List.foldl_cons, insertIM_fresh (hf x (List.mem_cons_self x l))]
    rw [List.map_cons, List.nodup_cons] at hn
    rw [ih (acc ++ [(key x, val x)]) hn.2 ?_]
    · simp
    · intro y hy
      rw [List.map_append, List.mem_append]
      rintro (hc | hc)
      · exact hf y (List.mem_cons_of_mem x hy) hc
      · simp only [List.map_cons, List.map_nil, List.mem_singleton] at hc
        exact hn.1 (hc ▸ List.mem_map.mpr ⟨y, hy, rfl⟩)

/-! ## Characterizing `groupDotted` on flattened names -/

/-- The step function of `groupDotted`. -/
def groupStep (m : List (Name × List (Name × Name))) (k : Name) :
    List (Name × List (Name × Name)) :=
  if hasDot k then pushGroup m (prefixOf k) (k, suffixOf k) else m

theorem groupDotted_foldl (keys : List Name) : groupDotted keys = keys.foldl groupStep [] := rfl

theorem pushGroup_fresh {α : Type} {m : List (Name × List α)} {k : Name} {x : α}
    (h : k ∉ m.map Prod.fst) : pushGroup m k x = m ++ [(k, [x])] := by
  induction m with
  | nil => rfl
  | cons p m ih =>
    rw [pushGroup]
    rw [List.map_cons] at h
    have hne : p.1 ≠ k := fun he => h (List.mem_cons.mpr (Or.inl he.symm))
    rw [if_neg hne, ih (fun hm => h (List.mem_cons.mpr (Or.inr hm)))]
    rfl

theorem pushGroup_last {α : Type} {m : List (Name × List α)} {k : Name} {xs : List α} {x : α}
    (h : k ∉ m.map Prod.fst) : pushGroup (m ++ [(k, xs)]) k x = m ++ [(k, xs ++ [x])] := by
  induction m with
  | nil => simp [pushGroup]
  | cons p m ih =>
    rw [List.map_cons] at h
    have hne : p.1 ≠ k := fun he => h (List.mem_cons.mpr (Or.inl he.symm))
    rw [List.cons_append, pushGroup, if_neg hne, ih (fun hm => h (List.mem_cons.mpr (Or.inr hm)))]
    rfl

/-- Folding `groupStep` over one struct column's flattened names appends one
group holding all of them, in order. -/
theorem groupFold_struct_aux (m0 : Name) (hm0 : hasDot m0 = false) :
    ∀ (T : List Name) (m : List (Name × List (Name × Name))) (xs : List (Name × Name)),
    m0 ∉ m.map Prod.fst →
    (T.map (fun t => m0 ++ '.' :: t)).foldl groupStep (m ++ [(m0, xs)]) =
      m ++ [(m0, xs ++ T.map (fun t => (m0 ++ '.' :: t, t)))] := by
  intro T
  induction T with
  | nil => intro m xs _; simp
  | cons t T ih =>
    intro m xs hf
    rw [List.map_cons, List.foldl_cons]
    have hstep : groupStep (m ++ [(m0, xs)]) (m0 ++ '.' :: t) =
        m ++ [(m0, xs ++ [(m0 ++ '.' :: t, t)])] := by
      rw [groupStep, if_pos (hasDot_append_dot m0 t), prefixOf_append_dot m0 t hm0,
        suffixOf_append_dot m0 t hm0]
      exact pushGroup_last hf
    rw [hstep, ih m (xs ++ [(m0 ++ '.' :: t, t)]) hf]
    simp

theorem groupFold_struct (m0 : Name) (T : List Name) (m : List (Name × List (Name × Name)))
    (hm0 : hasDot m0 = false) (hf : m0 ∉ m.map Prod.fst) (hT : T ≠ []) :
    (T.map (fun t => m0 ++ '.' :: t)).foldl groupStep m =
      m ++ [(m0, T.map (fun t => (m0 ++ '.' :: t, t)))] := by
  rcases T with _ | ⟨t0, T'⟩
  · exact absurd rfl hT
  rw [List.map_cons, List.foldl_cons]
  have hstep : groupStep m (m0 ++ '.' :: t0) = m ++ [(m0, [(m0 ++ '.' :: t0, t0)])] := by
    rw [groupStep, if_pos (hasDot_append_dot m0 t0), prefixOf_append_dot m0 t0 hm0,
      suffixOf_append_dot m0 t0 hm0]
    exact pushGroup_fresh hf
  rw [hstep, groupFold_struct_aux m0 hm0 T' m [(m0 ++ '.' :: t0, t0)] hf]
  simp

/-- The groups that `unflatten` will rebuild, stated directly from the
dataframe's struct columns. -/
def groupsSpec (df : List Series) : List (Name × List (Name × Name)) :=
  df.filterMap (fun c =>
    match c with
    | .strct mm g => some (mm, (namesOf (flattenFields g)).map (fun t => (mm ++ '.' :: t, t)))
    | _ => none)

theorem groupsSpec_leaf (n : Name) (dt : PDataType) (vs : List PValue) (rest : List Series) :
    groupsSpec (Series.leaf n dt vs :: rest) = groupsSpec rest := rfl

theorem groupsSpec_strct (m0 : Name) (g : List Series) (rest : List Series) :
    groupsSpec (Series.strct m0 g :: rest) =
      (m0, (namesOf (flattenFields g)).map (fun t => (m0 ++ '.' :: t, t))) :: groupsSpec rest := rfl

/-- `groupDotted` over the flattened names yields exactly one group per
struct column, in order, holding its flattened field names. -/
theorem groupDotted_flatten_aux :
    ∀ (df : List Series) (m : List (Name × List (Name × Name))),
    wfL df = true → distinctNames (namesOf df) = true →
    (∀ n ∈ m.map Prod.fst, n ∉ namesOf df) →
    (namesOf (flatten df)).foldl groupStep m = m ++ groupsSpec df := by
  intro df
  induction df with
  | nil => intro m _ _ _; simp [flatten, groupsSpec, namesOf]
  | cons c rest ih =>
    intro m hw hd hf
    obtain ⟨hwc, hwrest⟩ := wfL_cons hw
    obtain ⟨hnotin, hdrest⟩ := distinctNames_cons (by exact hd)
    rw [flatten_cons, namesOf_append, List.foldl_append]
    cases c with
    | leaf n dt vs =>
      have hskip : (namesOf (blockOf (Series.leaf n dt vs))).foldl groupStep m = m := by
        have : namesOf (blockOf (Series.leaf n dt vs)) = [n] := rfl
        rw [this, List.foldl_cons, List.foldl_nil, groupStep, if_neg]
        rw [wfS_leaf hwc]
        simp
      rw [hskip, groupsSpec_leaf]
      apply ih m hwrest hdrest
      intro n' hn'
      have := hf n' hn'
      rw [namesOf_cons] at this
      exact fun hc => this (List.mem_cons_of_mem _ hc)
    | strct m0 g =>
      obtain ⟨hm0, -, -, -⟩ := wfS_strct hwc
      have hm0f : m0 ∉ m.map Prod.fst := by
        intro hc
        have := hf m0 hc
        rw [namesOf_cons] at this
        exact this (List.mem_cons_self _ _)
      have hT : namesOf (flattenFields g) ≠ [] := by
        intro hc
        have hb := blockOf_ne_nil (sizeOf (Series.strct m0 g)) (Series.strct m0 g) le_rfl hwc
        have : blockOf (Series.strct m0 g) = flattenStructC m0 g := rfl
        rw [this, flattenStructC_eq] at hb
        rw [namesOf, List.map_eq_nil_iff] at hc
        rw [hc] at hb
        exact hb rfl
      rw [blockOf_strct_names, groupFold_struct m0 _ m hm0 hm0f hT, groupsSpec_strct]
      rw [ih (m ++ [(m0, (namesOf (flattenFields g)).map (fun t => (m0 ++ '.' :: t, t)))])
        hwrest hdrest ?_]
      · simp
      · intro n' hn'
        rw [List.map_append, List.mem_append] at hn'
        rcases hn' with hn' | hn'
        · have := hf n' hn'
          rw [namesOf_cons] at this
          exact fun hc => this (List.mem_cons_of_mem _ hc)
        · simp only [List.map_cons, List.map_nil, List.mem_singleton] at hn'
          subst hn'
          exact hnotin

theorem groupDotted_flatten (df : List Series) (hw : wfL df = true)
    (hd : distinctNames (namesOf df) = true) :
    groupDotted (namesOf (flatten df)) = groupsSpec df := by
  rw [groupDotted_foldl]
  have := groupDotted_flatten_aux df [] hw hd (by simp)
  simpa using this

/-! ## The splicing pass on flattened input -/

theorem removeIM_none {α : Type} {m : List (Name × α)} {k : Name}
    (h : k ∉ m.map Prod.fst) : removeIM m k = none := by
  induction m with
  | nil => rfl
  | cons p m ih =>
    rw [removeIM]
    rw [List.map_cons] at h
    have hne : p.1 ≠ k := fun he => h (List.mem_cons.mpr (Or.inl he.symm))
    rw [if_neg hne, ih (fun hm => h (List.mem_cons.mpr (Or.inr hm)))]
    rfl

theorem removeIM_head {α : Type} (k : Name) (v : α) (m : List (Name × α)) :
    removeIM ((k, v) :: m) k = some (v, m) := by
  rw [removeIM, if_pos rfl]

theorem structEntriesOf_nil : structEntriesOf [] = [] := rfl

theorem structEntriesOf_leaf (n : Name) (dt : PDataType) (vs : List PValue)
    (rest : List Series) :
    structEntriesOf (Series.leaf n dt vs :: rest) = structEntriesOf rest := rfl

theorem structEntriesOf_strct (m0 : Name) (g : List Series) (rest : List Series) :
    structEntriesOf (Series.strct m0 g :: rest) =
      (m0, Series.strct m0 g) :: structEntriesOf rest := rfl

theorem structEntriesOf_keys {df : List Series} {k : Name}
    (h : k ∈ (structEntriesOf df).map Prod.fst) : k ∈ namesOf df := by
  induction df with
  | nil => cases h
  | cons c rest ih =>
    cases c with
    | leaf n dt vs =>
      rw [structEntriesOf_leaf] at h
      rw [namesOf_cons]
      exact List.mem_cons_of_mem _ (ih h)
    | strct m0 g =>
      rw [structEntriesOf_strct, List.map_cons] at h
      rw [namesOf_cons]
      rcases List.mem_cons.mp h with h | h
      · exact List.mem_cons.mpr (Or.inl h)
      · exact List.mem_cons_of_mem _ (ih h)

/-- Skipping already-spliced dotted columns. -/
theorem splice_skip : ∀ (B : List (Name × Series)) (S M' : List (Name × Series)),
    (∀ p ∈ B, hasDot p.1 = true ∧ removeIM S (prefixOf p.1) = none) →
    spliceStructs S (B ++ M') = spliceStructs S M' := by
  intro B
  induction B with
  | nil => intro S M' _; rfl
  | cons p B ih =>
    intro S M' h
    obtain ⟨hd, hr⟩ := h p (List.mem_cons_self p B)
    rw [List.cons_append]
    rw [spliceStructs, hr, if_pos hd]
    exact ih S M' (fun q hq => h q (List.mem_cons_of_mem p hq))

/-- The splicing pass rebuilds the dataframe from its flattened form together
with the reconstructed struct columns. -/
theorem splice_flatten : ∀ (df : List Series), wfL df = true →
    distinctNames (namesOf df) = true →
    spliceStructs (structEntriesOf df) (toMap (flatten df)) = toMap df := by
  intro df
  induction df with
  | nil => intro _ _; rfl
  | cons c rest ih =>
    intro hw hd
    obtain ⟨hwc, hwrest⟩ := wfL_cons hw
    obtain ⟨hnotin, hdrest⟩ := distinctNames_cons (by exact hd)
    rw [flatten_cons, toMap_append]
    cases c with
    | leaf n dt vs =>
      have hb : toMap (blockOf (Series.leaf n dt vs)) = [(n, Series.leaf n dt vs)] := rfl
      rw [hb, List.cons_append, structEntriesOf_leaf, spliceStructs]
      have hnd : hasDot n = false := wfS_leaf hwc
      have hrem : removeIM (structEntriesOf rest) (prefixOf n) = none := by
        apply removeIM_none
        rw [prefixOf_no_dot n hnd]
        intro hc
        exact hnotin (structEntriesOf_keys hc)
      simp only [hrem, hnd, Bool.false_eq_true, if_false, List.nil_append]
      rw [ih hwrest hdrest]
      rfl
    | strct m0 g =>
      obtain ⟨hm0, -, -, -⟩ := wfS_strct hwc
      have hbne : blockOf (Series.strct m0 g) ≠ [] :=
        blockOf_ne_nil _ (Series.strct m0 g) le_rfl hwc
      have hbeq : blockOf (Series.strct m0 g) = (flattenFields g).map (prependParent m0) := by
        rw [show blockOf (Series.strct m0 g) = flattenStructC m0 g from rfl, flattenStructC_eq]
      rcases hfg : flattenFields g with _ | ⟨s0, tl⟩
      · rw [hbeq, hfg] at hbne; exact absurd rfl hbne
      have hblock : toMap (blockOf (Series.strct m0 g)) =
          (m0 ++ '.' :: s0.name, prependParent m0 s0) :: toMap (tl.map (prependParent m0)) := by
        rw [hbeq, hfg, List.map_cons, toMap_cons, prependParent_name]
      rw [hblock, structEntriesOf_strct, List.cons_append, spliceStructs]
      have hpre : prefixOf (m0 ++ '.' :: s0.name) = m0 := prefixOf_append_dot _ _ hm0
      simp only [hpre, removeIM_head]
      have hm0rest : m0 ∉ (structEntriesOf rest).map Prod.fst := by
        intro hc
        exact hnotin (structEntriesOf_keys hc)
      have hskip : spliceStructs (structEntriesOf rest)
          (toMap (tl.map (prependParent m0)) ++ toMap (flatten rest)) =
          spliceStructs (structEntriesOf rest) (toMap (flatten rest)) := by
        apply splice_skip
        intro p hp
        rw [toMap] at hp
        obtain ⟨s, hs, hps⟩ := List.mem_map.mp hp
        obtain ⟨s', hs', hss⟩ := List.mem_map.mp hs
        have hname : p.1 = m0 ++ '.' :: s'.name := by
          rw [← hps, ← hss, prependParent_name]
        constructor
        · rw [hname]; exact hasDot_append_dot _ _
        · rw [hname, prefixOf_append_dot _ _ hm0]
          exact removeIM_none hm0rest
      rw [hskip, ih hwrest hdrest]
      rfl

/-! ## The C1 round-trip -/

theorem wfDf_parts {df : List Series} (h : wfDf df = true) :
    wfL df = true ∧ distinctNames (namesOf df) = true := by
  rw [wfDf] at h
  simp only [Bool.and_eq_true] at h
  exact h

theorem unflatten_flatten_aux : ∀ (N : Nat) (df : List Series), sizeOf df ≤ N →
    wfDf df = true → unflatten (toMap (flatten df)) = toMap df := by
  intro N
  induction N with
  | zero =>
    intro df hsz
    cases df <;> simp_arith at hsz
  | succ N ih =>
    intro df hsz hwf
    obtain ⟨hw, hd⟩ := wfDf_parts hwf
    have hnodup : (namesOf (flatten df)).Nodup := by
      rw [flatten_eq_flattenFields]
      exact flattenFields_names_nodup (sizeOf df) df le_rfl hw hd
    rw [unflatten_eq, toMap_fst, groupDotted_flatten df hw hd]
    have hstructs : (groupsSpec df).map (fun g =>
        (g.1, Series.strct g.1
          ((unflatten (mkFieldsMap (toMap (flatten df)) g.2)).map Prod.snd))) =
        structEntriesOf df := by
      rw [groupsSpec, structEntriesOf, List.map_filterMap]
      apply List.filterMap_congr
      intro c hc
      cases c with
      | leaf n dt vs => rfl
      | strct m0 g =>
        simp only [Option.map_some']
        have hwc : wfS (Series.strct m0 g) = true := wfL_mem hw hc
        obtain ⟨hm0, -, hwg, hdg⟩ := wfS_strct hwc
        have hfields : mkFieldsMap (toMap (flatten df))
            ((namesOf (flattenFields g)).map (fun t => (m0 ++ '.' :: t, t))) =
            toMap (flattenFields g) := by
          rw [mkFieldsMap]
          rw [foldl_insert_fresh _ Prod.snd _ [] ?hn (by simp)]
          case hn =>
            rw [List.map_map]
            have h1 : (Prod.snd ∘ fun t => (m0 ++ '.' :: t, t)) = fun t : Name => t := rfl
            rw [h1, List.map_id']
            exact flattenFields_names_nodup (sizeOf g) g le_rfl hwg hdg
          rw [List.nil_append, List.map_map]
          rw [namesOf, List.map_map, toMap]
          apply List.map_congr_left
          intro s hs
          simp only [Function.comp_apply]
          have hmem : prependParent m0 s ∈ flatten df := by
            rw [flatten]
            apply List.mem_flatMap.mpr
            refine ⟨Series.strct m0 g, hc, ?_⟩
            rw [show blockOf (Series.strct m0 g) = flattenStructC m0 g from rfl,
              flattenStructC_eq]
            exact List.mem_map.mpr ⟨s, hs, rfl⟩
          have hlook := lookupIM_toMap hnodup hmem
          rw [prependParent_name, toMap] at hlook
          rw [hlook]
          simp only [Option.getD_some]
          rw [prependParent_rename, Series.rename_self]
        rw [hfields]
        rw [← flatten_eq_flattenFields]
        have hszg : sizeOf g ≤ N := by
          have h1 : sizeOf g < sizeOf (Series.strct m0 g) := sizeOf_fields_lt m0 g
          have h2 : sizeOf (Series.strct m0 g) < sizeOf df := sizeOf_mem_le hc
          omega
        have hwfg : wfDf g = true := by
          rw [wfDf, hwg]
          simp only [Bool.true_and]
          exact hdg
        rw [ih g hszg hwfg, toMap_snd]
        rfl
    rw [hstructs]
    exact splice_flatten df hw hd

/-! ## Claim theorems -/

/-- C1: for every dataframe with arbitrarily nested composite (struct)
columns (well-formed in the polars sense: dot-free names, distinct names at
each level, nonempty structs), `unflatten (flatten df)` is the identity,
including column names and column order: as ordered maps the round-trip
returns exactly the original columns. -/
theorem C1_flatten_unflatten_roundtrip (df : List Series) (h : wfDf df = true) :
    unflatten (toMap (flatten df)) = toMap df ∧
    (unflatten (toMap (flatten df))).map Prod.snd = df := by
  have h1 := unflatten_flatten_aux (sizeOf df) df le_rfl h
  exact ⟨h1, by rw [h1, toMap_snd]⟩

/-- A doubly nested dataframe mirroring the repository's own test
(structs.rs:106-152): `col1 { field1 }`, plain `col0`, and
`col2 { field1 { subfield1, subfield2 }, field2 }`. -/
def c1df : List Series :=
  [Series.strct ['c', 'o', 'l', '1'] [Series.leaf ['f', '1'] .string [.str ['v']]],
   Series.leaf ['c', 'o', 'l', '0'] .int32 [.i 1],
   Series.strct ['c', 'o', 'l', '2']
     [Series.strct ['f', '1']
        [Series.leaf ['s', '1'] .string [.str ['v']],
         Series.leaf ['s', '2'] .string [.str ['w']]],
      Series.leaf ['f', '2'] .string [.str ['v']]]]

theorem C1_witness :
    wfDf c1df = true ∧
    (unflatten (toMap (flatten c1df)) = toMap c1df ∧
      (unflatten (toMap (flatten c1df))).map Prod.snd = c1df) := by
  constructor
  · simp [c1df, wfDf, wfS, wfL, distinctNames, hasDot, Series.name]
  · exact C1_flatten_unflatten_roundtrip c1df
      (by simp [c1df, wfDf, wfS, wfL, distinctNames, hasDot, Series.name])

/-- C7: the HTTP adapter's stream shim: a response that decodes to exactly one
block yields a sequence of length two whose entries are both that block; a
response of zero bytes (no decoded items) yields the empty sequence without
error. -/
theorem C7_http_first_block_twice :
    (∀ b : Block, queryRawHttp [.ok b] = .ok [.ok b, .ok b]) ∧
    queryRawHttp [] = .ok [] := by
  exact ⟨fun b => rfl, rfl⟩

theorem findMismatch_some {t : KType} : ∀ (vs : List KValue),
    (∃ v ∈ vs, v.isNull = false ∧ v.guessType ≠ t) →
    ∃ v0, findMismatch t vs = some v0 ∧ v0 ∈ vs ∧ v0.isNull = false ∧ v0.guessType ≠ t := by
  intro vs
  induction vs with
  | nil => rintro ⟨v, hv, -⟩; cases hv
  | cons v vs ih =>
    rintro ⟨w, hw, hwn, hwg⟩
    rw [findMismatch]
    by_cases hn : v.isNull
    · rw [if_pos hn]
      have hwv : w ∈ vs := by
        rcases List.mem_cons.mp hw with hw | hw
        · subst hw; rw [hn] at hwn; cases hwn
        · exact hw
      obtain ⟨v0, h1, h2, h3, h4⟩ := ih ⟨w, hwv, hwn, hwg⟩
      exact ⟨v0, h1, List.mem_cons_of_mem v h2, h3, h4⟩
    · rw [if_neg hn]
      by_cases hg : v.guessType ≠ t
      · rw [if_pos hg]
        exact ⟨v, rfl, List.mem_cons_self v vs, Bool.not_eq_true _ ▸ by simpa using hn, hg⟩
      · rw [if_neg hg]
        push_neg at hg
        have hwv : w ∈ vs := by
          rcases List.mem_cons.mp hw with hw | hw
          · subst hw; exact absurd hg hwg
          · exact hw
        obtain ⟨v0, h1, h2, h3, h4⟩ := ih ⟨w, hwv, hwn, hwg⟩
        exact ⟨v0, h1, List.mem_cons_of_mem v h2, h3, h4⟩

/-- C2: the decoder `values_to_series` verifies, before decoding, that every
non-null value's physical tag matches the expected tag derived from the
declared type after stripping nullable/low-cardinality wrapping; whenever some
non-null value's tag differs, it fails with `MismatchingValueType(found,
expected)` (the found tag being one of the offending values' tags) and never
coerces. -/
theorem C2_decode_type_mismatch (values : List KValue) (t : CHType)
    (h : ∃ v ∈ values, v.isNull = false ∧ v.guessType ≠ expectedTag t) :
    ∃ f, valuesToSeries values t =
        .error (.err (.mismatchingValueType f (expectedTag t))) ∧
      ∃ v ∈ values, v.isNull = false ∧ v.guessType = f ∧ f ≠ expectedTag t := by
  obtain ⟨v0, h1, h2, h3, h4⟩ := findMismatch_some values h
  refine ⟨v0.guessType, ?_, v0, h2, h3, rfl, h4⟩
  rw [valuesToSeries.eq_def, h1]

/-- In particular (spec §8): decoding 64-bit integer values against a declared
string column type fails with `TypeMismatch`. -/
theorem C2_witness :
    (∃ v ∈ [KValue.int64 5], v.isNull = false ∧
        v.guessType ≠ expectedTag (.native .string)) ∧
    ∃ f, valuesToSeries [KValue.int64 5] (.native .string) =
        .error (.err (.mismatchingValueType f (expectedTag (.native .string)))) ∧
      ∃ v ∈ [KValue.int64 5], v.isNull = false ∧ v.guessType = f ∧
        f ≠ expectedTag (.native .string) := by
  refine ⟨?_, C2_decode_type_mismatch [KValue.int64 5] (.native .string) ?_⟩
  · exact ⟨KValue.int64 5, List.mem_cons_self _ _, rfl, by decide⟩
  · exact ⟨KValue.int64 5, List.mem_cons_self _ _, rfl, by decide⟩

/-! ## C8: the type-mapping round-trip -/

/-- Polars types whose mapping to ClickHouse erases nothing, in a nested
position (booleans erase to `UInt8` inside arrays; categorical parameters
erase to the defaults). -/
def dtOK : PDataType → Bool
  | .string | .uint8 | .uint16 | .uint32 | .uint64
  | .int8 | .int16 | .int32 | .int64 | .float32 | .float64 => true
  | .categorical none .physical => true
  | .list t => dtOK t
  | _ => false

/-- Top-level polars types with a lossless round-trip (booleans are fine at
top level, where the `Bool` tag survives). -/
def dtTopOK : PDataType → Bool
  | .boolean => true
  | d => dtOK d

/-- ClickHouse wire types with a lossless round-trip (`Uuid` and `Nullable`
erase: polars has neither a UUID type nor a nullability marker). -/
def kOK : KType → Bool
  | .string | .uint8 | .uint16 | .uint32 | .uint64
  | .int8 | .int16 | .int32 | .int64 | .float32 | .float64 => true
  | .lowCardinality .string => true
  | .array t => kOK t
  | _ => false

/-- ClickHouse-side types with a lossless round-trip. -/
def chOK : CHType → Bool
  | .native k => kOK k
  | .bool => true
  | .nullable _ => false

theorem dtOK_roundtrip : ∀ (d : PDataType), dtOK d = true →
    ∃ k, chOfDataType d = .ok (.native k) ∧ dataTypeOfCH (.native k) = .ok d := by
  intro d
  induction d with
  | list t ih =>
    intro h
    rw [dtOK] at h
    obtain ⟨k, hk1, hk2⟩ := ih h
    refine ⟨.array k, ?_, ?_⟩
    · rw [chOfDataType, hk1]
      rfl
    · rw [dataTypeOfCH]
      have : CHType.ofKType k = CHType.native k := rfl
      rw [this, hk2]
      rfl
  | categorical rev ord =>
    intro h
    cases rev with
    | none =>
      cases ord with
      | physical => exact ⟨.lowCardinality .string, rfl, by rw [dataTypeOfCH]⟩
      | lexical => exact absurd h (by decide)
    | some u => simp [dtOK] at h
  | string => intro _; exact ⟨.string, rfl, by rw [dataTypeOfCH]⟩
  | uint8 => intro _; exact ⟨.uint8, rfl, by rw [dataTypeOfCH]⟩
  | uint16 => intro _; exact ⟨.uint16, rfl, by rw [dataTypeOfCH]⟩
  | uint32 => intro _; exact ⟨.uint32, rfl, by rw [dataTypeOfCH]⟩
  | uint64 => intro _; exact ⟨.uint64, rfl, by rw [dataTypeOfCH]⟩
  | int8 => intro _; exact ⟨.int8, rfl, by rw [dataTypeOfCH]⟩
  | int16 => intro _; exact ⟨.int16, rfl, by rw [dataTypeOfCH]⟩
  | int32 => intro _; exact ⟨.int32, rfl, by rw [dataTypeOfCH]⟩
  | int64 => intro _; exact ⟨.int64, rfl, by rw [dataTypeOfCH]⟩
  | float32 => intro _; exact ⟨.float32, rfl, by rw [dataTypeOfCH]⟩
  | float64 => intro _; exact ⟨.float64, rfl, by rw [dataTypeOfCH]⟩
  | null => intro h; exact absurd h (by decide)
  | boolean => intro h; exact absurd h (by decide)
  | date => intro h; exact absurd h (by decide)

theorem kOK_roundtrip : ∀ (k : KType), kOK k = true →
    ∃ d, dataTypeOfCH (.native k) = .ok d ∧ chOfDataType d = .ok (.native k) := by
  intro k
  induction k with
  | array t ih =>
    intro h
    rw [kOK] at h
    obtain ⟨d, hd1, hd2⟩ := ih h
    refine ⟨.list d, ?_, ?_⟩
    · rw [dataTypeOfCH]
      have : CHType.ofKType t = CHType.native t := rfl
      rw [this, hd1]
      rfl
    · rw [chOfDataType, hd2]
      rfl
  | lowCardinality t ih =>
    intro h
    cases t with
    | string => exact ⟨.categorical none .physical, by rw [dataTypeOfCH], rfl⟩
    | _ => simp [kOK] at h
  | string => intro _; exact ⟨.string, by rw [dataTypeOfCH], rfl⟩
  | uint8 => intro _; exact ⟨.uint8, by rw [dataTypeOfCH], rfl⟩
  | uint16 => intro _; exact ⟨.uint16, by rw [dataTypeOfCH], rfl⟩
  | uint32 => intro _; exact ⟨.uint32, by rw [dataTypeOfCH], rfl⟩
  | uint64 => intro _; exact ⟨.uint64, by rw [dataTypeOfCH], rfl⟩
  | int8 => intro _; exact ⟨.int8, by rw [dataTypeOfCH], rfl⟩
  | int16 => intro _; exact ⟨.int16, by rw [dataTypeOfCH], rfl⟩
  | int32 => intro _; exact ⟨.int32, by rw [dataTypeOfCH], rfl⟩
  | int64 => intro _; exact ⟨.int64, by rw [dataTypeOfCH], rfl⟩
  | float32 => intro _; exact ⟨.float32, by rw [dataTypeOfCH], rfl⟩
  | float64 => intro _; exact ⟨.float64, by rw [dataTypeOfCH], rfl⟩
  | uuid => intro h; exact absurd h (by decide)
  | date => intro h; exact absurd h (by decide)
  | nullable t ih => intro h; simp [kOK] at h

/-- C8 counterexample: the claim fails as stated. `Nullable(Int64)` is a
supported database-side type involving neither the boolean nor the
low-cardinality tag, yet its round-trip through polars returns `Int64`
unwrapped (polars has no nullability marker), not `Nullable(Int64)`. -/
theorem C8_counterexample :
    dataTypeOfCH (CHType.nullable (CHType.native .int64)) = .ok .int64 ∧
    chOfDataType .int64 = .ok (CHType.native .int64) ∧
    CHType.native .int64 ≠ CHType.nullable (CHType.native .int64) := by
  refine ⟨?_, rfl, by decide⟩
  rw [dataTypeOfCH]
  rw [dataTypeOfCH]

/-- C8 (amended): the round-trip is the identity in both directions on the
types where the boolean/low-cardinality tags erase nothing, provided the
database-side type also avoids `Uuid` and `Nullable` (both unrepresentable in
polars and erased to plain string / the unwrapped type): polars→ClickHouse→
polars is the identity on `dtTopOK` types (integers and floats 1:1 by width,
arrays recursively, dictionary strings to low-cardinality string, booleans at
top level), and ClickHouse→polars→ClickHouse is the identity on `chOK`
types. -/
theorem C8_type_mapping_roundtrip :
    (∀ d, dtTopOK d = true → ∃ c, chOfDataType d = .ok c ∧ dataTypeOfCH c = .ok d) ∧
    (∀ c, chOK c = true → ∃ d, dataTypeOfCH c = .ok d ∧ chOfDataType d = .ok c) := by
  constructor
  · intro d h
    cases d with
    | boolean => exact ⟨.bool, rfl, by rw [dataTypeOfCH]⟩
    | _ =>
      obtain ⟨k, h1, h2⟩ := dtOK_roundtrip _ (by simp only [dtTopOK] at h; exact h)
      exact ⟨.native k, h1, h2⟩
  · intro c h
    cases c with
    | native k =>
      rw [chOK] at h
      exact kOK_roundtrip k h
    | bool => exact ⟨.boolean, by rw [dataTypeOfCH], rfl⟩
    | nullable t => simp [chOK] at h

theorem C8_witness :
    (dtTopOK (.list (.categorical none .physical)) = true ∧
      ∃ c, chOfDataType (.list (.categorical none .physical)) = .ok c ∧
        dataTypeOfCH c = .ok (.list (.categorical none .physical))) ∧
    (chOK (.native (.array .int64)) = true ∧
      ∃ d, dataTypeOfCH (.native (.array .int64)) = .ok d ∧
        chOfDataType d = .ok (.native (.array .int64))) := by
  constructor
  · exact ⟨by decide, C8_type_mapping_roundtrip.1 _ (by decide)⟩
  · exact ⟨by decide, C8_type_mapping_roundtrip.2 _ (by decide)⟩

/-- C9: the encoder panics (instead of emitting the `Null` tag) on a null
cell of a dictionary-encoded column: `series.categorical().unwrap()
.iter_str().map(|x| x.unwrap())` (p2c.rs:365-375) unwraps the `None` that
`iter_str` yields for a null cell. Every other branch of `series_to_values`
maps absent cells to `Value::Null`. -/
theorem C9_categorical_null_panics :
    seriesToValues
        (Series.leaf [] (.categorical none .physical) [.str ['a'], .null])
        (.native (.lowCardinality .string)) =
      .error Failure.panicked ∧
    seriesToValues (Series.leaf [] .uint8 [.u 1, .null]) (.native .uint8) =
      .ok [.uint8 1, .null] := by
  constructor
  · rw [seriesToValues]
    rfl
  · rw [seriesToValues]
    rfl

/-! ## Block assembler facts (C3, C4, C10) -/

theorem blocksFrom_eq (tys : List (Name × KType)) (iters : List (Name × List KValue)) :
    blocksFrom tys iters =
      match blockNext tys iters with
      | none => []
      | some (b, iters') => b :: blocksFrom tys iters' := by
  rw [blocksFrom]
  rcases blockNext tys iters with _ | ⟨b, it⟩ <;> rfl

theorem blockNext_zero {tys : List (Name × KType)} {iters : List (Name × List KValue)}
    (h : firstLen iters = 0) : blockNext tys iters = none := by
  rcases iters with _ | ⟨p, rest⟩
  · rfl
  · rw [firstLen, List.map_cons, List.headD_cons] at h
    rw [blockNext]
    simp only [List.map_cons, List.headD_cons]
    rw [if_pos]
    rw [List.length_take]
    omega

theorem blockNext_props {tys : List (Name × KType)} {iters iters' : List (Name × List KValue)}
    {b : Block} (h : blockNext tys iters = some (b, iters')) :
    b.rows ≤ 200000 ∧ 0 < b.rows ∧ b.column_types = tys := by
  rcases iters with _ | ⟨p, rest⟩
  · exact absurd h (by simp [blockNext])
  · rw [blockNext] at h
    simp only [List.map_cons, List.headD_cons] at h
    split at h
    · cases h
    · rename_i hrow
      rw [Option.some_inj, Prod.mk.injEq] at h
      obtain ⟨hb, -⟩ := h
      subst hb
      dsimp only
      rw [List.length_take] at hrow
      refine ⟨?_, ?_, rfl⟩
      · rw [List.length_take]; omega
      · rw [List.length_take]; omega

theorem blocksFrom_mem_aux (tys : List (Name × KType)) : ∀ (n : Nat)
    (iters : List (Name × List KValue)), firstLen iters ≤ n →
    ∀ b ∈ blocksFrom tys iters, b.rows ≤ 200000 ∧ 0 < b.rows ∧ b.column_types = tys := by
  intro n
  induction n with
  | zero =>
    intro iters hlen b hb
    rw [blocksFrom_eq, blockNext_zero (by omega)] at hb
    cases hb
  | succ n ih =>
    intro iters hlen b hb
    rw [blocksFrom_eq] at hb
    rcases hn : blockNext tys iters with _ | ⟨b0, it'⟩
    · rw [hn] at hb; cases hb
    · rw [hn] at hb
      rcases List.mem_cons.mp hb with hb | hb
      · subst hb; exact blockNext_props hn
      · have hd := blockNext_dec hn
        exact ih it' (by omega) b hb

/-- C3: the block assembler partitions a dataframe into blocks of at most
200 000 rows; the iteration ends rather than emitting a zero-row block; every
emitted block carries the same declared column-type map, which (by
`try_into_iter`) covers every schema column, including columns filled purely
by defaults; and a 350 000-row column yields exactly two blocks of 200 000
and 150 000 rows. -/
theorem C3_block_partition :
    (∀ (tys : List (Name × KType)) (iters : List (Name × List KValue)),
      ∀ b ∈ blocksFrom tys iters, b.rows ≤ 200000 ∧ 0 < b.rows ∧ b.column_types = tys) ∧
    (∀ (cols : List (Name × CHType)) (df : List Series) ctys iters,
      tryIntoIter cols df = .ok (ctys, iters) → ctys.map Prod.fst = cols.map Prod.fst) ∧
    (∀ (tys : List (Name × KType)) (c : Name) (v : KValue),
      (blocksFrom tys [(c, List.replicate 350000 v)]).map Block.rows = [200000, 150000]) := by
  refine ⟨?_, ?_, ?_⟩
  · intro tys iters b hb
    exact blocksFrom_mem_aux tys (firstLen iters) iters le_rfl b hb
  · intro cols df ctys iters h
    rw [tryIntoIter] at h
    rcases hm : df.mapM (fun col => do
        match lookupIM cols col.name with
        | none => Except.error Failure.panicked
        | some t => do
          let values ← seriesToValues col t
          pure (col.name, values)) with _ | vals
    · rw [hm] at h; cases h
    · rw [hm] at h
      have : ctys = cols.map (fun p => (p.1, p.2.toKType)) := by
        cases h; rfl
      rw [this, List.map_map]
      rfl
  · intro tys c v
    have hmin1 : min 200000 350000 = 200000 := by omega
    have hmin2 : min 200000 150000 = 150000 := by omega
    have h1 : blockNext tys [(c, List.replicate 350000 v)] =
        some ({ rows := 200000, column_types := tys,
                column_data := [(c, List.replicate 200000 v)] },
              [(c, List.replicate 150000 v)]) := by
      rw [blockNext]
      simp only [List.map_cons, List.map_nil, List.take_replicate, List.drop_replicate,
        List.length_replicate, List.headD_cons, hmin1]
      norm_num
    have h2 : blockNext tys [(c, List.replicate 150000 v)] =
        some ({ rows := 150000, column_types := tys,
                column_data := [(c, List.replicate 150000 v)] },
              [(c, List.replicate 0 v)]) := by
      rw [blockNext]
      simp only [List.map_cons, List.map_nil, List.take_replicate, List.drop_replicate,
        List.length_replicate, List.headD_cons, hmin2]
      norm_num
    have h3 : blockNext tys [(c, List.replicate 0 v)] = none := by
      apply blockNext_zero
      rw [firstLen]
      simp
    rw [blocksFrom_eq, h1]
    dsimp only
    rw [blocksFrom_eq, h2]
    dsimp only
    rw [blocksFrom_eq, h3]
    rfl

theorem blockNext_uniform {tys : List (Name × KType)} {iters iters' : List (Name × List KValue)}
    {b : Block} {L : Nat} (hL : ∀ p ∈ iters, p.2.length = L)
    (h : blockNext tys iters = some (b, iters')) :
    b.rows = min 200000 L ∧ (∀ p ∈ b.column_data, p.2.length = min 200000 L) ∧
      b.column_data.map Prod.fst = iters.map Prod.fst ∧
      (∀ p ∈ iters', p.2.length = L - 200000) ∧
      iters'.map Prod.fst = iters.map Prod.fst := by
  rcases iters with _ | ⟨p, rest⟩
  · exact absurd h (by simp [blockNext])
  · rw [blockNext] at h
    simp only [List.map_cons, List.headD_cons] at h
    split at h
    · cases h
    · rw [Option.some_inj, Prod.mk.injEq] at h
      obtain ⟨hb, hit⟩ := h
      subst hb
      subst hit
      refine ⟨?_, ?_, ?_, ?_, ?_⟩
      · show (p.2.take 200000).length = min 200000 L
        rw [List.length_take, hL p (List.mem_cons_self p rest)]
      · intro q hq
        show q.2.length = min 200000 L
        rcases List.mem_cons.mp hq with hq | hq
        · subst hq
          show (p.2.take 200000).length = min 200000 L
          rw [List.length_take, hL p (List.mem_cons_self p rest)]
        · obtain ⟨r, hr, hrq⟩ := List.mem_map.mp hq
          subst hrq
          show (r.2.take 200000).length = min 200000 L
          rw [List.length_take, hL r (List.mem_cons_of_mem p hr)]
      · show (p.1, p.2.take 200000).1 :: _ = _
        simp [List.map_map]
      · intro q hq
        rcases List.mem_cons.mp hq with hq | hq
        · subst hq
          show (p.2.drop 200000).length = L - 200000
          rw [List.length_drop, hL p (List.mem_cons_self p rest)]
        · obtain ⟨r, hr, hrq⟩ := List.mem_map.mp hq
          subst hrq
          show (r.2.drop 200000).length = L - 200000
          rw [List.length_drop, hL r (List.mem_cons_of_mem p hr)]
      · show (p.1, p.2.drop 200000).1 :: _ = _
        simp [List.map_map]

theorem C4_aux (tys : List (Name × KType)) : ∀ (N L : Nat)
    (iters : List (Name × List KValue)), L ≤ N → iters ≠ [] →
    (∀ p ∈ iters, p.2.length = L) →
    ∀ b ∈ blocksFrom tys iters,
      (∀ p ∈ b.column_data, p.2.length = b.rows) ∧
      (∃ p ∈ b.column_data, p.2.length = b.rows) ∧
      (∀ p ∈ b.column_data, b.rows ≤ p.2.length) := by
  intro N
  induction N with
  | zero =>
    intro L iters hLN hne hL b hb
    have hfl : firstLen iters = 0 := by
      rcases iters with _ | ⟨p, rest⟩
      · exact absurd rfl hne
      · rw [firstLen, List.map_cons, List.headD_cons, hL p (List.mem_cons_self p rest)]
        omega
    rw [blocksFrom_eq, blockNext_zero hfl] at hb
    cases hb
  | succ N ih =>
    intro L iters hLN hne hL b hb
    rw [blocksFrom_eq] at hb
    rcases hn : blockNext tys iters with _ | ⟨b0, it'⟩
    · rw [hn] at hb; cases hb
    · rw [hn] at hb
      obtain ⟨hrows, hdata, hfst, hit, hitfst⟩ := blockNext_uniform hL hn
      rcases List.mem_cons.mp hb with hb | hb
      · subst hb
        have hne' : b.column_data ≠ [] := by
          intro hc
          rw [hc] at hfst
          rcases iters with _ | ⟨p, rest⟩
          · exact absurd rfl hne
          · cases hfst
        obtain ⟨q, qs, hcd⟩ := List.exists_cons_of_ne_nil hne'
        refine ⟨?_, ⟨q, by rw [hcd]; exact List.mem_cons_self q qs, ?_⟩, ?_⟩
        · intro p hp; rw [hdata p hp, hrows]
        · rw [hdata q (by rw [hcd]; exact List.mem_cons_self q qs), hrows]
        · intro p hp; rw [hdata p hp, hrows]
      · have hpos := (blockNext_props hn).2.1
        have hLpos : 0 < L := by
          by_contra hc
          push_neg at hc
          rw [hrows] at hpos
          omega
        have hne'' : it' ≠ [] := by
          intro hc
          rw [hc] at hitfst
          rcases iters with _ | ⟨p, rest⟩
          · exact absurd rfl hne
          · cases hitfst
        exact ih (L - 200000) it' (by omega) hne'' hit b hb

/-- C4: every block produced by the block assembler satisfies the block
invariant: under the dataframe invariant that all value iterators have equal
length, each block's declared row count equals the shortest per-column slice
length taken in that round (every column's slice attains it and none is
shorter), and every column's value sequence in the block has exactly that
length. -/
theorem C4_block_invariant (tys : List (Name × KType)) (iters : List (Name × List KValue))
    (L : Nat) (hne : iters ≠ []) (hL : ∀ p ∈ iters, p.2.length = L) :
    ∀ b ∈ blocksFrom tys iters,
      (∀ p ∈ b.column_data, p.2.length = b.rows) ∧
      (∃ p ∈ b.column_data, p.2.length = b.rows) ∧
      (∀ p ∈ b.column_data, b.rows ≤ p.2.length) :=
  C4_aux tys L L iters le_rfl hne hL

/-! ## C10: defaults never overwrite dataframe columns -/

theorem lookupIM_append_left {α : Type} {m m' : List (Name × α)} {k : Name} {w : α}
    (h : lookupIM m k = some w) : lookupIM (m ++ m') k = some w := by
  induction m with
  | nil => cases h
  | cons p m ih =>
    obtain ⟨pk, pv⟩ := p
    simp only [lookupIM] at h ⊢
    split at h
    · rw [if_pos (by assumption)]
      exact h
    · rw [if_neg (by assumption)]
      exact ih h

theorem lookupIM_append_right {α : Type} {m m' : List (Name × α)} {k : Name}
    (h : lookupIM m k = none) : lookupIM (m ++ m') k = lookupIM m' k := by
  induction m with
  | nil => rfl
  | cons p m ih =>
    obtain ⟨pk, pv⟩ := p
    simp only [lookupIM] at h ⊢
    split at h
    · cases h
    · rw [if_neg (by assumption)]
      exact ih h

theorem entryOrInsert_preserves {α : Type} {m : List (Name × α)} {k' : Name} {v : α}
    {k : Name} {w : α} (h : lookupIM m k = some w) :
    lookupIM (entryOrInsert m k' v) k = some w := by
  rw [entryOrInsert]
  split
  · exact h
  · exact lookupIM_append_left h

theorem foldl_entryOrInsert_preserves {α β : Type} (f : β → α) :
    ∀ (defaults : List (Name × β)) (cd : List (Name × α)) (k : Name) (w : α),
    lookupIM cd k = some w →
    lookupIM (defaults.foldl (fun cd p => entryOrInsert cd p.1 (f p.2)) cd) k = some w := by
  intro defaults
  induction defaults with
  | nil => intro cd k w h; exact h
  | cons p defaults ih =>
    intro cd k w h
    rw [List.foldl_cons]
    exact ih _ k w (entryOrInsert_preserves h)

theorem foldl_entryOrInsert_fills {α β : Type} (f : β → α) :
    ∀ (defaults : List (Name × β)) (cd : List (Name × α)) (k : Name) (v : β),
    lookupIM cd k = none → lookupIM defaults k = some v →
    lookupIM (defaults.foldl (fun cd p => entryOrInsert cd p.1 (f p.2)) cd) k = some (f v) := by
  intro defaults
  induction defaults with
  | nil => intro cd k v _ h; cases h
  | cons p defaults ih =>
    intro cd k v hcd hdef
    rw [List.foldl_cons]
    rw [lookupIM] at hdef
    split at hdef
    · rename_i hpk
      rw [Option.some_inj] at hdef
      subst hdef
      have hstep : lookupIM (entryOrInsert cd p.1 (f p.2)) k = some (f p.2) := by
        rw [entryOrInsert, hpk, hcd]
        simp only [Option.isSome_none, Bool.false_eq_true, if_false]
        rw [lookupIM_append_right hcd, lookupIM, if_pos rfl]
      exact foldl_entryOrInsert_preserves f defaults _ k (f p.2) hstep
    · rename_i hpk
      apply ih _ k v ?_ hdef
      rw [entryOrInsert]
      split
      · exact hcd
      · rw [lookupIM_append_right hcd, lookupIM, if_neg hpk]
        rfl

/-- C10: if the defaults map passed to `insert_df` shares a key with a column
present in the (flattened) dataframe, the column-set validation still
succeeds (the union check permits the overlap) and the emitted blocks carry
the dataframe's encoded values for that column — `entry(k).or_insert_with`
never overwrites existing block data; defaults only fill columns absent from
the block, repeated once per row of each block. -/
theorem C10_defaults_never_overwrite (types : List (Name × CHType)) (df : List Series)
    (defaults : List (Name × KValue)) (ctys : List (Name × KType))
    (iters : List (Name × List KValue))
    (h1 : ((flatten df).map Series.name).toFinset ⊆ (types.map Prod.fst).toFinset)
    (h2 : ((flatten df).map Series.name).toFinset ∪ (defaults.map Prod.fst).toFinset =
      (types.map Prod.fst).toFinset)
    (h3 : tryIntoIter types (flatten df) = .ok (ctys, iters)) :
    insertDfBlocks types df defaults =
      .ok ((blocksFrom ctys iters).map (injectDefaults defaults)) ∧
    (∀ b : Block, ∀ k vs, lookupIM b.column_data k = some vs →
      lookupIM (injectDefaults defaults b).column_data k = some vs) ∧
    (∀ b : Block, ∀ k v, lookupIM b.column_data k = none → lookupIM defaults k = some v →
      lookupIM (injectDefaults defaults b).column_data k =
        some (List.replicate b.rows v)) := by
  refine ⟨?_, ?_, ?_⟩
  · have hv : blocksFromDf types (flatten df) defaults = .ok () := by
      rw [blocksFromDf]
      rw [if_neg (not_not_intro h1), if_neg (not_not_intro h2)]
    have hstep : insertDfBlocks types df defaults =
        (blocksFromDf types (flatten df) defaults) >>= fun _ =>
          (tryIntoIter types (flatten df)) >>= fun p =>
            pure ((blocksFrom p.1 p.2).map (injectDefaults defaults)) := rfl
    rw [hstep, hv, h3]
    rfl
  · intro b k vs h
    exact foldl_entryOrInsert_preserves (List.replicate b.rows) defaults b.column_data k vs h
  · intro b k v hnone hdef
    exact foldl_entryOrInsert_fills (List.replicate b.rows) defaults b.column_data k v hnone hdef

/-! ## C5: the accumulator's terminal phase -/

/-- C5: when the block stream ends (the accumulation fold having produced the
final per-column series), every schema column that received no rows is
dropped: if all columns are empty the result is the empty dataframe (zero
rows, zero columns); if the remaining non-empty columns disagree in length,
the accumulator fails with `MismatchingLengths` carrying the set of observed
lengths; otherwise the result is built from exactly the non-empty columns. -/
theorem C5_accumulator_terminal (blocks : List Block) (chTypes : List (Name × CHType))
    (S R : List (Name × Series)) (hacc : accumulate blocks chTypes = .ok S)
    (hR : R = S.filter (fun p => seriesLen p.2 != 0)) :
    (R = [] → getDfStream blocks chTypes = .ok []) ∧
    (2 ≤ ((R.map (fun p => seriesLen p.2)).toFinset).card →
      getDfStream blocks chTypes =
        .error (.err (.mismatchingLengths (R.map (fun p => seriesLen p.2)).toFinset))) ∧
    (((R.map (fun p => seriesLen p.2)).toFinset).card = 1 →
      getDfStream blocks chTypes = .ok ((unflatten R).map Prod.snd)) := by
  have hg : getDfStream blocks chTypes = terminalStep S := by
    rw [show getDfStream blocks chTypes = accumulate blocks chTypes >>= terminalStep from rfl,
      hacc]
    rfl
  rw [hg, terminalStep, ← hR]
  refine ⟨?_, ?_, ?_⟩
  · intro h0
    rw [h0]
    simp
  · intro h2
    have hne : (R.map (fun p => seriesLen p.2)).toFinset ≠ ∅ := by
      apply Finset.Nonempty.ne_empty
      apply Finset.card_pos.mp
      omega
    rw [if_neg hne, if_pos (by omega)]
  · intro h1
    have hne : (R.map (fun p => seriesLen p.2)).toFinset ≠ ∅ := by
      apply Finset.Nonempty.ne_empty
      apply Finset.card_pos.mp
      omega
    rw [if_neg hne, if_neg (by omega)]

theorem C5_witness :
    (accumulate [] [(['a'], CHType.native .uint8)] =
        .ok [(['a'], Series.leaf ['a'] .uint8 [])] ∧
      ([] : List (Name × Series)) =
        [(['a'], Series.leaf ['a'] .uint8 [])].filter (fun p => seriesLen p.2 != 0)) ∧
    getDfStream [] [(['a'], CHType.native .uint8)] = .ok [] := by
  have hacc : accumulate [] [(['a'], CHType.native .uint8)] =
      .ok [(['a'], Series.leaf ['a'] .uint8 [])] := by
    rw [show accumulate [] [(['a'], CHType.native .uint8)] =
      initSeries [(['a'], CHType.native .uint8)] >>= fun init => pure init from rfl]
    rw [initSeries, List.mapM_cons]
    rw [show dataTypeOfCH (CHType.native .uint8) = .ok .uint8 from by rw [dataTypeOfCH]]
    rfl
  have hR : ([] : List (Name × Series)) =
      [(['a'], Series.leaf ['a'] .uint8 [])].filter (fun p => seriesLen p.2 != 0) := rfl
  exact ⟨⟨hacc, hR⟩,
    (C5_accumulator_terminal [] [(['a'], CHType.native .uint8)] _ [] hacc hR).1 rfl⟩

theorem C3_witness :
    (⟨1, [], [(['a'], [KValue.uint8 1])]⟩ : Block) ∈
        blocksFrom [] [(['a'], [KValue.uint8 1])] ∧
    ((⟨1, [], [(['a'], [KValue.uint8 1])]⟩ : Block).rows ≤ 200000 ∧
      0 < (⟨1, [], [(['a'], [KValue.uint8 1])]⟩ : Block).rows ∧
      (⟨1, [], [(['a'], [KValue.uint8 1])]⟩ : Block).column_types = []) ∧
    (tryIntoIter [] [] = .ok ([], []) → ([] : List (Name × KType)).map Prod.fst =
      ([] : List (Name × CHType)).map Prod.fst) := by
  have hmem : (⟨1, [], [(['a'], [KValue.uint8 1])]⟩ : Block) ∈
      blocksFrom [] [(['a'], [KValue.uint8 1])] := by
    rw [blocksFrom_eq]
    have h1 : blockNext [] [(['a'], [KValue.uint8 1])] =
        some (⟨1, [], [(['a'], [KValue.uint8 1])]⟩, [(['a'], [])]) := by
      rw [blockNext]
      rfl
    rw [h1]
    exact List.mem_cons_self _ _
  refine ⟨hmem, C3_block_partition.1 [] [(['a'], [KValue.uint8 1])] _ hmem,
    fun h => C3_block_partition.2.1 [] [] [] [] h⟩

theorem C4_witness :
    ((([(['a'], [KValue.uint8 1])]) : List (Name × List KValue)) ≠ [] ∧
      (∀ p ∈ ([(['a'], [KValue.uint8 1])] : List (Name × List KValue)), p.2.length = 1)) ∧
    ∀ b ∈ blocksFrom [] [(['a'], [KValue.uint8 1])],
      (∀ p ∈ b.column_data, p.2.length = b.rows) ∧
      (∃ p ∈ b.column_data, p.2.length = b.rows) ∧
      (∀ p ∈ b.column_data, b.rows ≤ p.2.length) := by
  refine ⟨⟨by simp, ?_⟩, C4_block_invariant [] [(['a'], [KValue.uint8 1])] 1 (by simp) ?_⟩
  · intro p hp
    rw [List.mem_singleton] at hp
    subst hp
    rfl
  · intro p hp
    rw [List.mem_singleton] at hp
    subst hp
    rfl

theorem C10_witness :
    (((flatten [Series.leaf ['a'] .uint8 [.u 1]]).map Series.name).toFinset ⊆
        ([(['a'], CHType.native .uint8), (['b'], CHType.native .uint8)].map
          (Prod.fst (β := CHType))).toFinset ∧
      ((flatten [Series.leaf ['a'] .uint8 [.u 1]]).map Series.name).toFinset ∪
          ([(['a'], KValue.uint8 9), (['b'], KValue.uint8 7)].map
            (Prod.fst (β := KValue))).toFinset =
        ([(['a'], CHType.native .uint8), (['b'], CHType.native .uint8)].map
          (Prod.fst (β := CHType))).toFinset ∧
      tryIntoIter [(['a'], CHType.native .uint8), (['b'], CHType.native .uint8)]
          (flatten [Series.leaf ['a'] .uint8 [.u 1]]) =
        .ok ([(['a'], KType.uint8), (['b'], KType.uint8)], [(['a'], [KValue.uint8 1])])) ∧
    insertDfBlocks [(['a'], CHType.native .uint8), (['b'], CHType.native .uint8)]
        [Series.leaf ['a'] .uint8 [.u 1]]
        [(['a'], KValue.uint8 9), (['b'], KValue.uint8 7)] =
      .ok ((blocksFrom [(['a'], KType.uint8), (['b'], KType.uint8)]
          [(['a'], [KValue.uint8 1])]).map
        (injectDefaults [(['a'], KValue.uint8 9), (['b'], KValue.uint8 7)])) := by
  have hflat : flatten [Series.leaf ['a'] .uint8 [.u 1]] =
      [Series.leaf ['a'] .uint8 [.u 1]] := rfl
  have h3 : tryIntoIter [(['a'], CHType.native .uint8), (['b'], CHType.native .uint8)]
      (flatten [Series.leaf ['a'] .uint8 [.u 1]]) =
      .ok ([(['a'], KType.uint8), (['b'], KType.uint8)], [(['a'], [KValue.uint8 1])]) := by
    rw [hflat, tryIntoIter, List.mapM_cons]
    rw [show lookupIM [(['a'], CHType.native .uint8), (['b'], CHType.native .uint8)]
      (Series.leaf ['a'] .uint8 [.u 1]).name = some (CHType.native .uint8) from rfl]
    dsimp only
    rw [show seriesToValues (Series.leaf ['a'] .uint8 [.u 1]) (CHType.native .uint8) =
      .ok [KValue.uint8 1] from by rw [seriesToValues]; rfl]
    rfl
  have h1 : ((flatten [Series.leaf ['a'] .uint8 [.u 1]]).map Series.name).toFinset ⊆
      ([(['a'], CHType.native .uint8), (['b'], CHType.native .uint8)].map
        (Prod.fst (β := CHType))).toFinset := by
    rw [hflat]; decide
  have h2 : ((flatten [Series.leaf ['a'] .uint8 [.u 1]]).map Series.name).toFinset ∪
      ([(['a'], KValue.uint8 9), (['b'], KValue.uint8 7)].map
        (Prod.fst (β := KValue))).toFinset =
      ([(['a'], CHType.native .uint8), (['b'], CHType.native .uint8)].map
        (Prod.fst (β := CHType))).toFinset := by
    rw [hflat]; decide
  exact ⟨⟨h1, h2, h3⟩,
    (C10_defaults_never_overwrite _ _ _ _ _ h1 h2 h3).1⟩

/-! ## C6: the missing-initial-block error and type overrides -/

/-- An outcome that is not the `ProtocolError("Missing initial block")` class
of failures: no code path below `get_df_query`'s own check produces a
`KlickhouseError`. -/
def protoFree {α : Type} : Res α → Prop
  | .error (.err (.klickhouseProtocol _)) => False
  | _ => True

theorem protoFree_bind {α β : Type} {a : Res α} {f : α → Res β} (ha : protoFree a)
    (hf : ∀ x, protoFree (f x)) : protoFree (a >>= f) := by
  cases a with
  | ok x => exact hf x
  | error e =>
    cases e with
    | panicked => exact ha
    | err er => cases er <;> exact ha

theorem protoFree_mapM {α β : Type} (f : α → Res β) (hf : ∀ x, protoFree (f x)) :
    ∀ l : List α, protoFree (l.mapM f) := by
  intro l
  induction l with
  | nil => exact trivial
  | cons x l ih =>
    rw [List.mapM_cons]
    exact protoFree_bind (hf x) (fun _ => protoFree_bind ih (fun _ => trivial))

theorem protoFree_foldlM {α β : Type} (f : β → α → Res β) (hf : ∀ b a, protoFree (f b a)) :
    ∀ (l : List α) (b : β), protoFree (l.foldlM f b) := by
  intro l
  induction l with
  | nil => intro b; exact trivial
  | cons x l ih =>
    intro b
    rw [List.foldlM_cons]
    exact protoFree_bind (hf b x) (fun b' => ih b')

theorem protoFree_extractCells (conv : KValue → Option PValue) :
    ∀ vs : List KValue, protoFree (extractCells conv vs) := by
  intro vs
  induction vs with
  | nil => exact trivial
  | cons v vs ih =>
    rw [extractCells]
    cases hv : v.isNull with
    | true =>
      show protoFree (extractCells conv vs >>= fun ps => pure (PValue.null :: ps))
      exact protoFree_bind ih (fun _ => trivial)
    | false =>
      cases hc : conv v with
      | some p =>
        show protoFree (extractCells conv vs >>= fun ps => pure (p :: ps))
        exact protoFree_bind ih (fun _ => trivial)
      | none => exact trivial

theorem ksize_pos (k : KType) : 1 ≤ k.ksize := by
  cases k <;> simp [KType.ksize]

theorem protoFree_dataTypeOfCH_aux : ∀ (N : Nat) (t : CHType), chMeasure t ≤ N →
    protoFree (dataTypeOfCH t) := by
  intro N
  induction N with
  | zero =>
    intro t h
    cases t with
    | native k =>
      have := ksize_pos k
      rw [chMeasure] at h
      omega
    | bool => rw [show dataTypeOfCH .bool = .ok .boolean from by rw [dataTypeOfCH]]; exact trivial
    | nullable s => rw [chMeasure] at h; omega
  | succ N ih =>
    intro t h
    cases t with
    | bool => rw [show dataTypeOfCH .bool = .ok .boolean from by rw [dataTypeOfCH]]; exact trivial
    | nullable s =>
      rw [show dataTypeOfCH (CHType.nullable s) = dataTypeOfCH s from by rw [dataTypeOfCH]]
      rw [chMeasure] at h
      exact ih s (by omega)
    | native k =>
      rw [chMeasure] at h
      cases k with
      | string => rw [dataTypeOfCH]; exact trivial
      | uint8 => rw [dataTypeOfCH]; exact trivial
      | uint16 => rw [dataTypeOfCH]; exact trivial
      | uint32 => rw [dataTypeOfCH]; exact trivial
      | uint64 => rw [dataTypeOfCH]; exact trivial
      | int8 => rw [dataTypeOfCH]; exact trivial
      | int16 => rw [dataTypeOfCH]; exact trivial
      | int32 => rw [dataTypeOfCH]; exact trivial
      | int64 => rw [dataTypeOfCH]; exact trivial
      | float32 => rw [dataTypeOfCH]; exact trivial
      | float64 => rw [dataTypeOfCH]; exact trivial
      | uuid => rw [dataTypeOfCH]; exact trivial
      | date => simp only [dataTypeOfCH]; exact trivial
      | array inner =>
        rw [dataTypeOfCH]
        apply protoFree_bind
        · apply ih
          rw [KType.ksize] at h
          rw [CHType.ofKType, chMeasure]
          omega
        · intro d; exact trivial
      | nullable s =>
        rw [dataTypeOfCH]
        have hred : CHType.mkNullable (CHType.ofKType s) = CHType.nullable (CHType.native s) :=
          rfl
        rw [hred]
        apply ih
        rw [KType.ksize] at h
        rw [chMeasure, chMeasure]
        omega
      | lowCardinality inner =>
        cases inner with
        | string => rw [dataTypeOfCH]; exact trivial
        | _ => simp only [dataTypeOfCH]; exact trivial

theorem protoFree_dataTypeOfCH (t : CHType) : protoFree (dataTypeOfCH t) :=
  protoFree_dataTypeOfCH_aux (chMeasure t) t le_rfl

theorem protoFree_valuesToSeries_aux : ∀ (N : Nat),
    (∀ (t : CHType) (values : List KValue), 2 * chMeasure t + 1 ≤ N →
      protoFree (valuesToSeries values t)) ∧
    (∀ (t : CHType) (values : List KValue), 2 * chMeasure t ≤ N →
      protoFree (valuesToSeriesBody values t)) := by
  intro N
  induction N with
  | zero =>
    constructor
    · intro t values h; omega
    · intro t values h
      cases t with
      | native k =>
        have := ksize_pos k
        rw [chMeasure] at h
        omega
      | bool =>
        rw [valuesToSeriesBody]
        exact protoFree_bind (protoFree_extractCells _ _) (fun _ => trivial)
      | nullable s => rw [chMeasure] at h; omega
  | succ N ih =>
    constructor
    · intro t values h
      rw [valuesToSeries.eq_def]
      split
      · exact trivial
      · exact ih.2 t values (by omega)
    · intro t values h
      cases t with
      | bool =>
        rw [valuesToSeriesBody]
        exact protoFree_bind (protoFree_extractCells _ _) (fun _ => trivial)
      | nullable s =>
        rw [show valuesToSeriesBody values (CHType.nullable s) = valuesToSeries values s from
          by rw [valuesToSeriesBody]]
        rw [chMeasure] at h
        exact ih.1 s values (by omega)
      | native k =>
        rw [chMeasure] at h
        cases k with
        | string =>
          rw [valuesToSeriesBody]
          exact protoFree_bind (protoFree_extractCells _ _) (fun _ => trivial)
        | uint8 =>
          rw [valuesToSeriesBody]
          exact protoFree_bind (protoFree_extractCells _ _) (fun _ => trivial)
        | uint16 =>
          rw [valuesToSeriesBody]
          exact protoFree_bind (protoFree_extractCells _ _) (fun _ => trivial)
        | uint32 =>
          rw [valuesToSeriesBody]
          exact protoFree_bind (protoFree_extractCells _ _) (fun _ => trivial)
        | uint64 =>
          rw [valuesToSeriesBody]
          exact protoFree_bind (protoFree_extractCells _ _) (fun _ => trivial)
        | int8 =>
          rw [valuesToSeriesBody]
          exact protoFree_bind (protoFree_extractCells _ _) (fun _ => trivial)
        | int16 =>
          rw [valuesToSeriesBody]
          exact protoFree_bind (protoFree_extractCells _ _) (fun _ => trivial)
        | int32 =>
          rw [valuesToSeriesBody]
          exact protoFree_bind (protoFree_extractCells _ _) (fun _ => trivial)
        | int64 =>
          rw [valuesToSeriesBody]
          exact protoFree_bind (protoFree_extractCells _ _) (fun _ => trivial)
        | float32 =>
          rw [valuesToSeriesBody]
          exact protoFree_bind (protoFree_extractCells _ _) (fun _ => trivial)
        | float64 =>
          rw [valuesToSeriesBody]
          exact protoFree_bind (protoFree_extractCells _ _) (fun _ => trivial)
        | uuid =>
          rw [valuesToSeriesBody]
          exact protoFree_bind (protoFree_extractCells _ _) (fun _ => trivial)
        | date => simp only [valuesToSeriesBody]; exact trivial
        | nullable s =>
          rw [show valuesToSeriesBody values (CHType.native (KType.nullable s)) =
            valuesToSeries values (CHType.ofKType s) from by rw [valuesToSeriesBody]]
          apply ih.1
          rw [KType.ksize] at h
          rw [CHType.ofKType, chMeasure]
          omega
        | array inner =>
          rw [valuesToSeriesBody]
          apply protoFree_bind
          · apply protoFree_mapM
            intro v
            split
            · apply ih.1
              rw [KType.ksize] at h
              rw [CHType.ofKType, chMeasure]
              omega
            · exact trivial
            · exact trivial
          · intro series; exact trivial
        | lowCardinality inner =>
          cases inner with
          | string =>
            rw [valuesToSeriesBody]
            exact protoFree_bind (protoFree_extractCells _ _) (fun _ => trivial)
          | _ => simp only [valuesToSeriesBody]; exact trivial

theorem protoFree_valuesToSeries (values : List KValue) (t : CHType) :
    protoFree (valuesToSeries values t) :=
  (protoFree_valuesToSeries_aux (2 * chMeasure t + 1)).1 t values le_rfl

theorem protoFree_extendSeries (a b : Series) : protoFree (extendSeries a b) := by
  rw [extendSeries.eq_def]
  split
  · split <;> exact trivial
  · exact trivial

theorem protoFree_initSeries (chTypes : List (Name × CHType)) :
    protoFree (initSeries chTypes) := by
  rw [initSeries]
  apply protoFree_mapM
  intro p
  exact protoFree_bind (protoFree_dataTypeOfCH p.2) (fun _ => trivial)

theorem protoFree_processBlock (chTypes : List (Name × CHType))
    (series : List (Name × Series)) (b : Block) :
    protoFree (processBlock chTypes series b) := by
  rw [processBlock]
  apply protoFree_foldlM
  intro acc p
  split
  · exact trivial
  · rename_i s hs
    cases hct : lookupIM chTypes p.1 with
    | none => exact trivial
    | some t =>
      show protoFree (valuesToSeries p.2 t >>= fun dec =>
        extendSeries s dec >>= fun s' => pure (insertIM acc p.1 s'))
      exact protoFree_bind (protoFree_valuesToSeries p.2 t) (fun dec =>
        protoFree_bind (protoFree_extendSeries s dec) (fun s' => trivial))

theorem protoFree_terminalStep (series : List (Name × Series)) :
    protoFree (terminalStep series) := by
  rw [terminalStep]
  split
  · exact trivial
  · split <;> exact trivial

theorem protoFree_getDfStream (blocks : List Block) (chTypes : List (Name × CHType)) :
    protoFree (getDfStream blocks chTypes) := by
  rw [show getDfStream blocks chTypes = accumulate blocks chTypes >>= terminalStep from rfl]
  apply protoFree_bind
  · rw [accumulate]
    apply protoFree_bind (protoFree_initSeries chTypes)
    intro init
    exact protoFree_foldlM _ (fun s b => protoFree_processBlock chTypes s b) blocks init
  · intro final
    exact protoFree_terminalStep final

theorem lookupIM_insertIM_self {α : Type} (m : List (Name × α)) (k : Name) (v : α) :
    lookupIM (insertIM m k v) k = some v := by
  induction m with
  | nil => rw [insertIM, lookupIM, if_pos rfl]
  | cons p m ih =>
    obtain ⟨pk, pv⟩ := p
    rw [insertIM]
    split
    · rename_i hpk
      rw [lookupIM, if_pos hpk]
    · rename_i hpk
      rw [lookupIM, if_neg hpk]
      exact ih

theorem lookupIM_insertIM_other {α : Type} (m : List (Name × α)) (k k' : Name) (v : α)
    (h : k' ≠ k) : lookupIM (insertIM m k' v) k = lookupIM m k := by
  induction m with
  | nil =>
    simp [insertIM, lookupIM, h]
  | cons p m ih =>
    obtain ⟨pk, pv⟩ := p
    rw [insertIM]
    split
    · rename_i hpk
      subst hpk
      rw [lookupIM, lookupIM, if_neg h, if_neg h]
    · rw [lookupIM, lookupIM]
      split
      · rfl
      · exact ih

theorem lookupIM_extendIM_not_mem {α : Type} :
    ∀ (types m : List (Name × α)) (k : Name), k ∉ types.map Prod.fst →
    lookupIM (extendIM m types) k = lookupIM m k := by
  intro types
  induction types with
  | nil => intro m k _; rfl
  | cons p types ih =>
    intro m k hk
    rw [List.map_cons] at hk
    rw [show extendIM m (p :: types) = extendIM (insertIM m p.1 p.2) types from rfl]
    rw [ih _ k (fun hc => hk (List.mem_cons_of_mem _ hc))]
    exact lookupIM_insertIM_other m k p.1 p.2
      (fun he => hk (List.mem_cons.mpr (Or.inl he.symm)))

theorem lookupIM_extendIM_mem {α : Type} :
    ∀ (types m : List (Name × α)) (k : Name) (v : α), (types.map Prod.fst).Nodup →
    (k, v) ∈ types → lookupIM (extendIM m types) k = some v := by
  intro types
  induction types with
  | nil => intro m k v _ hm; cases hm
  | cons p types ih =>
    intro m k v hn hm
    rw [List.map_cons, List.nodup_cons] at hn
    rw [show extendIM m (p :: types) = extendIM (insertIM m p.1 p.2) types from rfl]
    rcases List.mem_cons.mp hm with hm | hm
    · subst hm
      rw [lookupIM_extendIM_not_mem types _ k hn.1]
      exact lookupIM_insertIM_self m k v
    · exact ih _ k v hn.2 hm

/-- C6: the query path fails with the "Missing initial block" protocol error
exactly when the incoming block stream yields no block at all; otherwise the
first block (even with zero rows) is authoritative for column types, and the
authoritative schema is its type map with every caller-supplied override
replacing the server-declared type of the same column name (other columns
keep the server-declared type). -/
theorem C6_missing_initial_block :
    (∀ types : List (Name × CHType),
      getDfQuery [] types = .error (.err (.klickhouseProtocol "Missing initial block".data))) ∧
    (∀ (blocks : List Block) (types : List (Name × CHType)),
      getDfQuery blocks types =
          .error (.err (.klickhouseProtocol "Missing initial block".data)) →
      blocks = []) ∧
    (∀ (b : Block) (rest : List Block) (types : List (Name × CHType)),
      getDfQuery (b :: rest) types =
        getDfStream rest
          (extendIM (b.column_types.map (fun p => (p.1, CHType.ofKType p.2))) types)) ∧
    (∀ (m types : List (Name × CHType)), (types.map Prod.fst).Nodup →
      (∀ k v, (k, v) ∈ types → lookupIM (extendIM m types) k = some v) ∧
      (∀ k, k ∉ types.map Prod.fst → lookupIM (extendIM m types) k = lookupIM m k)) := by
  refine ⟨fun types => rfl, ?_, fun b rest types => rfl, ?_⟩
  · intro blocks types h
    cases blocks with
    | nil => rfl
    | cons b rest =>
      have hp := protoFree_getDfStream rest
        (extendIM (b.column_types.map (fun p => (p.1, CHType.ofKType p.2))) types)
      rw [show getDfQuery (b :: rest) types = getDfStream rest
        (extendIM (b.column_types.map (fun p => (p.1, CHType.ofKType p.2))) types) from rfl]
        at h
      rw [h] at hp
      exact hp.elim
  · intro m types hn
    exact ⟨fun k v hm => lookupIM_extendIM_mem types m k v hn hm,
      fun k hk => lookupIM_extendIM_not_mem types m k hk⟩

theorem C6_witness :
    getDfQuery [] [] = .error (.err (.klickhouseProtocol "Missing initial block".data)) ∧
    ((getDfQuery [] [] = .error (.err (.klickhouseProtocol "Missing initial block".data)) →
        ([] : List Block) = []) ∧
      ((([(['a'], CHType.native .uint8)] : List (Name × CHType)).map Prod.fst).Nodup ∧
        lookupIM (extendIM [(['a'], CHType.bool)] [(['a'], CHType.native .uint8)]) ['a'] =
          some (CHType.native .uint8))) := by
  refine ⟨C6_missing_initial_block.1 [], ⟨fun h => C6_missing_initial_block.2.1 [] [] h, ?_⟩⟩
  constructor
  · decide
  · exact (C6_missing_initial_block.2.2.2 [(['a'], CHType.bool)]
      [(['a'], CHType.native .uint8)] (by decide)).1 ['a'] (CHType.native .uint8)
      (List.mem_cons_self _ _)

end Polarhouse
